import Mathlib

/-!
# AIDA day planner — embedding and verification

A shallow embedding of the AIDA scheduling core (`aida/planner.py` and the
parts of `aida/models.py` it relies on), together with theorems checking the
specification's claims about it.

Time model: the planner manipulates timezone-aware datetimes at whole-minute
resolution; we embed instants as `Int` minutes counted from an epoch aligned
to midnight, so that datetime subtraction (`(a - b).total_seconds() / 60`,
exact on whole-minute inputs), `timedelta.days` (floor division by 1440),
`.hour` (floor division by 60, modulo 24), and `%` on non-negative counters
all become exact integer operations (`Int.fdiv` / `Int.emod` match Python's
flooring semantics).

Python's `end` field names are rendered as `stop` (`end` is reserved in
Lean); `workday_start`/`workday_end` keep their source names.  Block types
are the source's literal strings `"event"`, `"pomodoro"`, `"break"`,
`"long_break"`.
-/

namespace Aida

/-- `Preferences` (models.py:10-33).  Field validators require the three
break/pomodoro durations to be positive; nothing relates `workday_start` to
`workday_end`, and `cycles_per_long_break` is not validated. -/
structure Preferences where
  workday_start : Int
  workday_end : Int
  pomodoro_min : Int
  break_min : Int
  long_break_min : Int
  cycles_per_long_break : Int
deriving Repr, DecidableEq

/-- `Task` (models.py:36-53).  `energy` and `notes` are never read by the
planner and are omitted.  `id` defaults to a fresh uuid in the source; here it
is always explicit. -/
structure Task where
  id : String
  title : String
  estimate_min : Int
  priority : Int
  deadline : Option Int
  requires_deep_work : Bool
deriving Repr, DecidableEq

/-- `Event` (models.py:56-74); `location` is never read by the planner and is
omitted.  `model_post_init` rejects `start >= end` at construction. -/
structure Event where
  start : Int
  stop : Int
  title : String
deriving Repr, DecidableEq

/-- `Block` (models.py:77-101).  `type` is one of the literal strings
`"event" | "pomodoro" | "break" | "long_break"`. -/
structure Block where
  start : Int
  stop : Int
  type : String
  title : String
  task_id : Option String
deriving Repr, DecidableEq

/-- `Block.duration_minutes` (models.py:98-101): `int((end - start)
.total_seconds() / 60)`, exact on the whole-minute blocks the planner
produces. -/
def duration_minutes (b : Block) : Int := b.stop - b.start

/-- `PlanRequest` (models.py:104-108). -/
structure PlanRequest where
  preferences : Preferences
  tasks : List Task
  events : List Event
deriving Repr, DecidableEq

/-- `PlanSummary` (models.py:111-120), restricted to the six fields
`plan_day` fills (the remaining two keep their defaults there). -/
structure PlanSummary where
  total_pomodoros : Nat
  total_break_time : Int
  scheduled_tasks : Nat
  unscheduled_tasks : List String
  free_time_minutes : Int
  deep_work_windows : List String
deriving Repr, DecidableEq

/-- `PlanResponse` (models.py:123-126). -/
structure PlanResponse where
  blocks : List Block
  summary : PlanSummary
deriving Repr, DecidableEq

/-- Construction-time validation of `Preferences`, as pydantic performs it
(models.py:19-33): the timezone-awareness checks carry no content in the
whole-minute embedding; `validate_positive_minutes` runs on `pomodoro_min`,
`break_min` and `long_break_min` only.  No check compares `workday_start`
with `workday_end`, and `cycles_per_long_break` has no validator. -/
def mkPreferences (workday_start workday_end pomodoro_min break_min
    long_break_min cycles_per_long_break : Int) : Except String Preferences :=
  if pomodoro_min ≤ 0 then Except.error ("Time values must be positive")
  else if break_min ≤ 0 then Except.error ("Time values must be positive")
  else if long_break_min ≤ 0 then Except.error ("Time values must be positive")
  else Except.ok
    { workday_start := workday_start, workday_end := workday_end,
      pomodoro_min := pomodoro_min, break_min := break_min,
      long_break_min := long_break_min,
      cycles_per_long_break := cycles_per_long_break }

/-- Construction-time validation of `Event` (models.py:63-74):
`model_post_init` rejects `start >= end`. -/
def mkEvent (start stop : Int) (title : String) : Except String Event :=
  if stop ≤ start then Except.error ("Event start must be before end")
  else Except.ok { start := start, stop := stop, title := title }

/-! ## Interval algebra (planner.py:11-70)

Intervals are `(start, end) : Int × Int` pairs of minutes.  Python's
`sorted(intervals, key=lambda x: x[0])` is a stable ascending sort on the
first component; the fold-left insertion sort below is extensionally the
same function (equal keys keep their original relative order). -/

/-- Stable insertion: place `x` before the first already-placed element that
`x` must strictly precede, i.e. after every element it does not.  Folding it
left over a list (`stableSort`) is extensionally Python's stable `sorted`
for the corresponding key: equal-key elements keep their original relative
order. -/
def insertStable (before : α → α → Bool) (x : α) : List α → List α
  | [] => [x]
  | h :: rest =>
    if before x h then x :: h :: rest else h :: insertStable before x rest

/-- Stable sort realized as a left fold of stable insertions. -/
def stableSort (before : α → α → Bool) (l : List α) : List α :=
  l.foldl (fun acc x => insertStable before x acc) []

/-- Stable sort by interval start (`sorted(intervals, key=lambda x: x[0])`,
planner.py:16). -/
def sortByStart (l : List (Int × Int)) : List (Int × Int) :=
  stableSort (fun p q => decide (p.1 < q.1)) l

/-- The fold of `merge_intervals` (planner.py:19-25): `last` is the interval
currently at the tail of `merged`; an incoming interval whose start is `≤`
`last`'s end is merged into it (`max` of the ends), otherwise `last` is
emitted and the incoming interval becomes the new tail. -/
def mergeLoop : Int × Int → List (Int × Int) → List (Int × Int)
  | last, [] => [last]
  | last, current :: rest =>
    if current.1 ≤ last.2 then mergeLoop (last.1, max last.2 current.2) rest
    else last :: mergeLoop current rest

/-- `merge_intervals` (planner.py:11-27). -/
def merge_intervals (intervals : List (Int × Int)) : List (Int × Int) :=
  match sortByStart intervals with
  | [] => []
  | first :: rest => mergeLoop first rest

/-- The cursor walk of `subtract_busy_time` (planner.py:42-51): for each busy
interval, emit the gap before it when the cursor is strictly before its
start, then advance the cursor to `max cursor busy_end`.  Returns the gaps
and the final cursor. -/
def freeScan : Int → List (Int × Int) → List (Int × Int) × Int
  | cur, [] => ([], cur)
  | cur, (bs, be) :: rest =>
    let tail := freeScan (max cur be) rest
    if cur < bs then ((cur, bs) :: tail.1, tail.2) else tail

/-- `subtract_busy_time` (planner.py:30-57). -/
def subtract_busy_time (work_window : Int × Int)
    (busy_intervals : List (Int × Int)) : List (Int × Int) :=
  if busy_intervals = [] then [work_window]
  else
    let merged := merge_intervals busy_intervals
    let scan := freeScan work_window.1 merged
    if scan.2 < work_window.2 then scan.1 ++ [(scan.2, work_window.2)]
    else scan.1

/-- `add_event_buffers` (planner.py:60-70); `plan_day` calls it with the
default `buffer_minutes = 5`. -/
def add_event_buffers (events : List Event) (buffer_minutes : Int) :
    List (Int × Int) :=
  events.map (fun e => (e.start - buffer_minutes, e.stop + buffer_minutes))

/-! ## Task scoring (planner.py:73-93) -/

/-- Hour-of-day of an instant (`current_time.hour`). -/
def hourOf (t : Int) : Int := (t.fdiv 60).emod 24

/-- The urgency component of `calculate_task_score` (planner.py:77-81):
`0` without a deadline, otherwise `max(0, 10 - (deadline - now).days)` where
`timedelta.days` floors (`Int.fdiv` by minutes-per-day). -/
def urgencyOf (task : Task) (current_time : Int) : Int :=
  match task.deadline with
  | none => 0
  | some d => max 0 (10 - (d - current_time).fdiv 1440)

/-- `calculate_task_score` (planner.py:73-88).  All three components are
integers in the source as well (the `float` return never holds a fraction). -/
def calculate_task_score (task : Task) (current_time : Int) : Int :=
  let base_score := 5 * task.priority
  let energy_match :=
    if task.requires_deep_work ∧ 9 ≤ hourOf current_time ∧ hourOf current_time < 12
    then 2 else 0
  base_score + urgencyOf task current_time + energy_match

/-- `segment_task` (planner.py:91-93): `math.ceil(estimate_min /
pomodoro_minutes)`, which for a positive divisor is `-((-e) fdiv p)`. -/
def segment_task (task : Task) (pomodoro_minutes : Int) : Int :=
  -(Int.fdiv (-task.estimate_min) pomodoro_minutes)

/-- `create_pomodoro_block` (planner.py:96-121). -/
def create_pomodoro_block (start_time duration_min : Int) (task : Task)
    (block_type : String) : Block :=
  let stop_time := start_time + duration_min
  if block_type = ("pomodoro") then
    { start := start_time, stop := stop_time, type := block_type,
      title := ("🍅 ") ++ task.title, task_id := some task.id }
  else if block_type = ("break") then
    { start := start_time, stop := stop_time, type := block_type,
      title := ("☕ Break"), task_id := none }
  else
    { start := start_time, stop := stop_time, type := block_type,
      title := ("🌟 Long Break"), task_id := none }

/-! ## The packer (planner.py:124-248) -/

/-- The candidate search of the inner `while` loop (planner.py:164-181):
fold over the pool keeping `(best_task, best_score)`, starting from
`(None, -1)`; tasks whose id was already scheduled are skipped; a task is a
candidate when `cycles_needed * (pomodoro_min + break_min)` fits in the
minutes remaining to `free_end`; a strictly higher score replaces the
incumbent, so ties keep the earliest candidate in pool order. -/
def findBest (prefs : Preferences) (pool : List Task) (scheduled : List String)
    (current_time free_end : Int) : Option Task :=
  (pool.foldl
    (fun acc task =>
      if task.id ∈ scheduled then acc
      else
        let cycles_needed := segment_task task prefs.pomodoro_min
        let time_needed := cycles_needed * (prefs.pomodoro_min + prefs.break_min)
        let remaining_minutes := free_end - current_time
        if time_needed ≤ remaining_minutes then
          let score := calculate_task_score task current_time
          if score > acc.2 then (some task, score) else acc
        else acc)
    ((none : Option Task), (-1 : Int))).1

/-- The `scheduled_task_ids` set (planner.py:157, 217): modelled as a
duplicate-free list; `add` is a no-op on a present member, so length is the
set's cardinality. -/
def addId (s : List String) (id : String) : List String :=
  if id ∈ s then s else s ++ [id]

/-- The per-task placement loop `for cycle in range(cycles_needed)`
(planner.py:189-215), recursing on the number of cycles still to place.
`not_last_in_pool` is `tasks.index(best_task) < len(tasks) - 1`, constant
during one placement.  Each iteration first checks the `current_time >=
free_end` guard (which aborts the whole placement), then emits the pomodoro
block, advances the cursor and the global cycle counter, and emits a break
block — long when the counter divides `cycles_per_long_break`, short
otherwise — unless this is the task's last cycle and it is the last task in
the pool, or the advanced cursor is not strictly before `free_end`.
Returns (cursor, counter, blocks). -/
def placeCycles (prefs : Preferences) (task : Task) (not_last_in_pool : Bool)
    (free_end : Int) :
    Nat → Int → Int → List Block → Int × Int × List Block
  | 0, current_time, cycle_count, blocks => (current_time, cycle_count, blocks)
  | remaining + 1, current_time, cycle_count, blocks =>
    if free_end ≤ current_time then (current_time, cycle_count, blocks)
    else
      let pom := create_pomodoro_block current_time prefs.pomodoro_min task
        ("pomodoro")
      let t1 := current_time + prefs.pomodoro_min
      let c1 := cycle_count + 1
      if (0 < remaining ∨ not_last_in_pool = true) ∧ t1 < free_end then
        let is_long := c1.emod prefs.cycles_per_long_break = 0
        let break_duration := if is_long then prefs.long_break_min else prefs.break_min
        let break_type := if is_long then ("long_break") else ("break")
        let brk := create_pomodoro_block t1 break_duration task break_type
        placeCycles prefs task not_last_in_pool free_end remaining (t1 + break_duration)
          c1 (blocks ++ [pom, brk])
      else
        placeCycles prefs task not_last_in_pool free_end remaining t1 c1
          (blocks ++ [pom])

/-- The inner `while current_time < free_end and tasks:` loop
(planner.py:163-218) for one free interval.  Fuel bounds the iterations; each
iteration either stops (no candidate) or erases the placed task from the
pool, so `fuel = pool.length` at the call site makes the fuel never the
binding constraint.  `List.erase`/`List.indexOf` act on the first
`==`-equal element exactly as Python's `list.remove`/`list.index`; the
chosen task is always a pool member.  Returns (pool, scheduled ids, counter,
blocks). -/
def packInterval (prefs : Preferences) :
    Nat → Int → Int → List Task → List String → Int → List Block →
    List Task × List String × Int × List Block
  | 0, _, _, pool, scheduled, cycle_count, blocks =>
    (pool, scheduled, cycle_count, blocks)
  | fuel + 1, current_time, free_end, pool, scheduled, cycle_count, blocks =>
    if current_time < free_end ∧ pool ≠ [] then
      match findBest prefs pool scheduled current_time free_end with
      | none => (pool, scheduled, cycle_count, blocks)
      | some best =>
        let cycles_needed := segment_task best prefs.pomodoro_min
        let not_last := decide (pool.indexOf best < pool.length - 1)
        let step := placeCycles prefs best not_last free_end cycles_needed.toNat
          current_time cycle_count blocks
        packInterval prefs fuel step.1 free_end (pool.erase best)
          (addId scheduled best.id) step.2.1 step.2.2
    else (pool, scheduled, cycle_count, blocks)

/-- The outer `for free_start, free_end in free_intervals:` loop
(planner.py:160-218). -/
def packAll (prefs : Preferences) :
    List (Int × Int) → List Task → List String → Int → List Block →
    List Task × List String × Int × List Block
  | [], pool, scheduled, cycle_count, blocks =>
    (pool, scheduled, cycle_count, blocks)
  | (free_start, free_end) :: rest, pool, scheduled, cycle_count, blocks =>
    let step := packInterval prefs pool.length free_start free_end pool
      scheduled cycle_count blocks
    packAll prefs rest step.1 step.2.1 step.2.2.1 step.2.2.2

/-- The `event` Block built at planner.py:144-153. -/
def eventBlock (e : Event) : Block :=
  { start := e.start, stop := e.stop, type := ("event"),
    title := ("📅 ") ++ e.title, task_id := none }

/-- `all_blocks.sort(key=lambda b: b.start)` (planner.py:221), Python's
stable ascending sort. -/
def sortBlocksByStart (l : List Block) : List Block :=
  stableSort (fun a b => decide (a.start < b.start)) l

/-- Two-digit zero padding for `strftime("%H:%M")`. -/
def pad2 (n : Int) : String :=
  if n < 10 then ("0") ++ toString n else toString n

/-- `b.start.strftime("%H:%M")` on the minute model. -/
def fmtHM (t : Int) : String :=
  pad2 ((t.fdiv 60).emod 24) ++ (":") ++ pad2 (t.emod 60)

/-- Python's `sorted(request.tasks, key=..., reverse=True)` (planner.py:127):
a stable descending sort on the score key (equal keys keep input order). -/
def sortTasksByScoreDesc (key : Task → Int) (l : List Task) : List Task :=
  stableSort (fun a b => decide (key a > key b)) l

/-- `plan_day` (planner.py:124-248). -/
def plan_day (request : PlanRequest) : PlanResponse :=
  let prefs := request.preferences
  let tasks := sortTasksByScoreDesc
    (fun t => calculate_task_score t prefs.workday_start) request.tasks
  let events := request.events
  let work_window := (prefs.workday_start, prefs.workday_end)
  let busy_intervals :=
    add_event_buffers events 5 ++ events.map (fun e => (e.start, e.stop))
  let free_intervals := subtract_busy_time work_window busy_intervals
  let event_blocks := events.map eventBlock
  let packed := packAll prefs free_intervals tasks [] 0 event_blocks
  let all_blocks := sortBlocksByStart packed.2.2.2
  let pomodoro_blocks := all_blocks.filter (fun b => b.type == "pomodoro")
  let break_blocks :=
    all_blocks.filter (fun b => b.type == "break" || b.type == "long_break")
  let unscheduled_tasks := packed.1.map (fun t => t.title)
  let total_break_time := (break_blocks.map duration_minutes).sum
  let total_scheduled_time :=
    ((all_blocks.filter (fun b => !(b.type == "event"))).map duration_minutes).sum
  let work_day_minutes := prefs.workday_end - prefs.workday_start
  let free_time := max 0 (work_day_minutes - total_scheduled_time)
  let deep_work_windows :=
    (pomodoro_blocks.filter (fun b =>
      match b.task_id with
      | none => false
      | some tid =>
        !(tid == "") &&
          request.tasks.any (fun t => t.id == tid && t.requires_deep_work))).map
      (fun b => fmtHM b.start ++ ("-") ++ fmtHM b.stop)
  { blocks := all_blocks,
    summary :=
      { total_pomodoros := pomodoro_blocks.length,
        total_break_time := total_break_time,
        scheduled_tasks := packed.2.1.length,
        unscheduled_tasks := unscheduled_tasks,
        free_time_minutes := free_time,
        deep_work_windows := deep_work_windows } }

/-! ## Notions used by the claims -/

/-- A minute instant `x` lies inside one of the (half-open) intervals. -/
def coveredBy (x : Int) (l : List (Int × Int)) : Prop :=
  ∃ p ∈ l, p.1 ≤ x ∧ x < p.2

/-- Adjacency invariant of a merged interval list: sorted by start and
strictly disjoint. -/
def mergedRel (a b : Int × Int) : Prop := a.1 ≤ b.1 ∧ a.2 < b.1

/-- Adjacency invariant of the free-interval list: each gap ends no later
than the next begins. -/
def gapRel (a b : Int × Int) : Prop := a.2 ≤ b.1

/-- Two schedule blocks occupy disjoint (half-open) time ranges. -/
def blockDisjoint (a b : Block) : Prop := a.stop ≤ b.start ∨ b.stop ≤ a.start

/-- The break type the placement loop chooses when the global work-unit
counter has reached `c` (planner.py:204-209). -/
def breakKind (prefs : Preferences) (c : Int) : String :=
  if c.emod prefs.cycles_per_long_break = 0 then ("long_break") else ("break")

/-- The break length matching `breakKind`. -/
def breakLen (prefs : Preferences) (c : Int) : Int :=
  if c.emod prefs.cycles_per_long_break = 0 then prefs.long_break_min
  else prefs.break_min

/-- Number of work (`"pomodoro"`) blocks in a list. -/
def pomCount (l : List Block) : Nat :=
  (l.filter (fun b => b.type == "pomodoro")).length

/-- Heap-explicit variant of `plan_day` for the frame claim.  The Python
call can reach exactly two list objects through `request`: `request.tasks`
(read at lines 127 and 236, never written) and `request.events` (read at
lines 128-153, never written).  Line 127's `sorted(request.tasks, ...)`
allocates a fresh pool list, and the destructive `tasks.remove(best_task)`
at line 218 targets only that pool.  This variant threads the two
request-owned lists through the pipeline and returns their final contents
beside the response. -/
def plan_day_heap (request : PlanRequest) :
    PlanResponse × List Task × List Event :=
  let request_tasks := request.tasks
  let request_events := request.events
  let prefs := request.preferences
  let pool := sortTasksByScoreDesc
    (fun t => calculate_task_score t prefs.workday_start) request_tasks
  let work_window := (prefs.workday_start, prefs.workday_end)
  let busy_intervals :=
    add_event_buffers request_events 5 ++
      request_events.map (fun e => (e.start, e.stop))
  let free_intervals := subtract_busy_time work_window busy_intervals
  let event_blocks := request_events.map eventBlock
  let packed := packAll prefs free_intervals pool [] 0 event_blocks
  let all_blocks := sortBlocksByStart packed.2.2.2
  let pomodoro_blocks := all_blocks.filter (fun b => b.type == "pomodoro")
  let break_blocks :=
    all_blocks.filter (fun b => b.type == "break" || b.type == "long_break")
  let unscheduled_tasks := packed.1.map (fun t => t.title)
  let total_break_time := (break_blocks.map duration_minutes).sum
  let total_scheduled_time :=
    ((all_blocks.filter (fun b => !(b.type == "event"))).map duration_minutes).sum
  let work_day_minutes := prefs.workday_end - prefs.workday_start
  let free_time := max 0 (work_day_minutes - total_scheduled_time)
  let deep_work_windows :=
    (pomodoro_blocks.filter (fun b =>
      match b.task_id with
      | none => false
      | some tid =>
        !(tid == "") &&
          request_tasks.any (fun t => t.id == tid && t.requires_deep_work))).map
      (fun b => fmtHM b.start ++ ("-") ++ fmtHM b.stop)
  (⟨all_blocks,
      { total_pomodoros := pomodoro_blocks.length,
        total_break_time := total_break_time,
        scheduled_tasks := packed.2.1.length,
        unscheduled_tasks := unscheduled_tasks,
        free_time_minutes := free_time,
        deep_work_windows := deep_work_windows }⟩,
    request_tasks, request_events)

/-! ## Concrete inputs used by counterexamples and witnesses -/

/-- Two overlapping (but individually valid) events: 10:00-11:00 and
10:30-11:30. -/
def reqOverlapEvents : PlanRequest :=
  ⟨⟨540, 1050, 25, 5, 15, 4⟩, [], [⟨600, 660, "A"⟩, ⟨630, 690, "B"⟩]⟩

/-- The spec's end-to-end shape with `long_break_min ≤ break_min`, used to
witness the non-overlap theorem. -/
def reqNonOverlapW : PlanRequest :=
  ⟨⟨540, 1050, 25, 5, 5, 4⟩, [⟨"t1", "Write report", 50, 5, none, false⟩],
    [⟨660, 720, "Team meeting"⟩]⟩

/-- The task of `reqAtomBug`. -/
def taskAtomBug : Task := ⟨"t1", "T", 50, 3, none, false⟩

/-- Atomicity failing input: one 50-minute task (2 cycles of 25) in a
60-minute window, with a 100-minute long break due after every cycle.  The
fit check reserves `2 * (25 + 5) = 60 ≤ 60` minutes, but the first long
break overshoots the window and the second cycle is dropped. -/
def reqAtomBug : PlanRequest := ⟨⟨0, 60, 25, 5, 100, 1⟩, [taskAtomBug], []⟩

/-- A single event whose title shows the emoji prefixing. -/
def reqEventTitle : PlanRequest :=
  ⟨⟨540, 1050, 25, 5, 15, 4⟩, [], [⟨540, 600, "Standup"⟩]⟩

/-- A task whose deadline is 15 days after instant 0. -/
def taskFarDeadline : Task := ⟨"a", "Far", 25, 3, some 21600, false⟩

/-- A task overdue by exactly 3 days relative to instant 0. -/
def taskOverdue : Task := ⟨"b", "Overdue", 25, 3, some (-4320), false⟩

/-- Concrete determinism witness input. -/
def reqDetW : PlanRequest :=
  ⟨⟨540, 1050, 25, 5, 15, 4⟩, [⟨"t1", "Deep", 50, 5, some 2000, true⟩],
    [⟨660, 720, "Meeting"⟩]⟩

/-- The blocks emitted by one placement of `task` (planner.py:189-215),
starting from cursor `ct` and global counter `cc`, with `n` cycles to
place: the block-list delta of `placeCycles` run on an empty accumulator. -/
def placeDelta (prefs : Preferences) (task : Task) (nl : Bool) (fe : Int)
    (n : Nat) (ct cc : Int) : List Block :=
  (placeCycles prefs task nl fe n ct cc []).2.2

/-- Cadence-witness preferences. -/
def prefsW3 : Preferences := ⟨0, 2000, 25, 5, 15, 4⟩

/-- Cadence-witness task being placed. -/
def taskW3 : Task := ⟨"w", "W", 50, 3, none, false⟩

/-- A second pooled task, so that `taskW3` is not last in the pool. -/
def otherW3 : Task := ⟨"o", "O", 25, 3, none, false⟩

/-- Cadence-witness pool. -/
def poolW3 : List Task := [taskW3, otherW3]

/-- First block the cadence witness inspects. -/
def blockW3a : Block := ⟨0, 25, "pomodoro", "🍅 W", some "w"⟩

/-- Second block the cadence witness inspects. -/
def blockW3b : Block := ⟨25, 30, "break", "☕ Break", none⟩

/-! # Verification

## Stable insertion sort -/

theorem insertStable_perm (before : α → α → Bool) (x : α) :
    ∀ l : List α, (insertStable before x l).Perm (x :: l)
  | [] => List.Perm.refl _
  | h :: rest => by
    by_cases hb : before x h
    · simp [insertStable, hb]
    · simp only [insertStable, if_neg hb]
      exact ((insertStable_perm before x rest).cons h).trans
        (List.Perm.swap x h rest)

theorem foldl_insertStable_perm (before : α → α → Bool) :
    ∀ (l acc : List α),
      (l.foldl (fun acc x => insertStable before x acc) acc).Perm (acc ++ l)
  | [], acc => by simp
  | x :: rest, acc => by
    have h1 := foldl_insertStable_perm before rest (insertStable before x acc)
    have h2 : (insertStable before x acc ++ rest).Perm (acc ++ x :: rest) :=
      ((insertStable_perm before x acc).append_right rest).trans
        List.perm_middle.symm
    exact (List.foldl_cons .. ▸ h1).trans h2

theorem stableSort_perm (before : α → α → Bool) (l : List α) :
    (stableSort before l).Perm l :=
  (foldl_insertStable_perm before l []).trans (by simp)

theorem insertStable_head (before : α → α → Bool) (x : α) :
    ∀ l : List α, ∀ y ∈ (insertStable before x l).head?, x = y ∨ y ∈ l.head?
  | [], y, hy => Or.inl (by simpa [insertStable] using hy)
  | h :: rest, y, hy => by
    by_cases hb : before x h
    · simp only [insertStable, if_pos hb, List.head?] at hy
      exact Or.inl (by simpa using hy)
    · simp only [insertStable, if_neg hb, List.head?] at hy
      exact Or.inr (by simpa [List.head?] using hy)

theorem insertStable_chain {R : α → α → Prop} {before : α → α → Bool}
    (htrue : ∀ a b, before a b = true → R a b)
    (hfalse : ∀ a b, before a b = false → R b a) (x : α) :
    ∀ l : List α, List.Chain' R l → List.Chain' R (insertStable before x l) := by
  intro l
  induction l with
  | nil => intro _; exact List.chain'_singleton x
  | cons h rest ih =>
    intro hc
    by_cases hb : before x h
    · simp only [insertStable, if_pos hb]
      exact hc.cons (htrue x h hb)
    · simp only [insertStable, if_neg hb]
      refine (ih hc.tail).cons' ?_
      intro y hy
      rcases insertStable_head before x rest y hy with rfl | hmem
      · exact hfalse x h (Bool.of_not_eq_true hb)
      · exact hc.rel_head? hmem

theorem foldl_insertStable_chain {R : α → α → Prop} {before : α → α → Bool}
    (htrue : ∀ a b, before a b = true → R a b)
    (hfalse : ∀ a b, before a b = false → R b a) :
    ∀ (l acc : List α), List.Chain' R acc →
      List.Chain' R (l.foldl (fun acc x => insertStable before x acc) acc)
  | [], _, hacc => hacc
  | x :: rest, acc, hacc => by
    rw [List.foldl_cons]
    exact foldl_insertStable_chain htrue hfalse rest _
      (insertStable_chain htrue hfalse x acc hacc)

theorem stableSort_chain {R : α → α → Prop} {before : α → α → Bool}
    (htrue : ∀ a b, before a b = true → R a b)
    (hfalse : ∀ a b, before a b = false → R b a) (l : List α) :
    List.Chain' R (stableSort before l) :=
  foldl_insertStable_chain htrue hfalse l [] List.chain'_nil

theorem sortByStart_chain (l : List (Int × Int)) :
    List.Chain' (fun a b => a.1 ≤ b.1) (sortByStart l) :=
  stableSort_chain
    (fun _ _ h => le_of_lt (of_decide_eq_true h))
    (fun _ _ h => le_of_not_lt (of_decide_eq_false h)) l

/-! ## The merge fold -/

theorem mergeLoop_head :
    ∀ (l : List (Int × Int)) (last : Int × Int),
      ∃ y ys, mergeLoop last l = (last.1, y) :: ys
  | [], last => ⟨last.2, [], by simp [mergeLoop]⟩
  | current :: rest, last => by
    by_cases hb : current.1 ≤ last.2
    · simpa [mergeLoop, hb] using
        mergeLoop_head rest (last.1, max last.2 current.2)
    · exact ⟨last.2, mergeLoop current rest, by simp [mergeLoop, hb]⟩

theorem mergeLoop_chain :
    ∀ (l : List (Int × Int)) (last : Int × Int),
      List.Chain' (fun a b => a.1 ≤ b.1) (last :: l) →
      List.Chain' mergedRel (mergeLoop last l)
  | [], _, _ => by simp [mergeLoop]
  | current :: rest, last, hc => by
    have hlc : last.1 ≤ current.1 := hc.rel_head
    have hcrest : List.Chain' (fun a b => a.1 ≤ b.1) (current :: rest) := hc.tail
    by_cases hb : current.1 ≤ last.2
    · simp only [mergeLoop, if_pos hb]
      refine mergeLoop_chain rest (last.1, max last.2 current.2) ?_
      refine (hcrest.tail).cons' ?_
      intro y hy
      exact le_trans hlc (hcrest.rel_head? hy)
    · simp only [mergeLoop, if_neg hb]
      have hlt : last.2 < current.1 := lt_of_not_le hb
      refine (mergeLoop_chain rest current hcrest).cons' ?_
      intro y hy
      obtain ⟨y0, ys, heq⟩ := mergeLoop_head rest current
      rw [heq] at hy
      rw [List.head?_cons, Option.mem_def, Option.some.injEq] at hy
      subst hy
      exact ⟨hlc, hlt⟩

theorem mergeLoop_proper :
    ∀ (l : List (Int × Int)) (last : Int × Int), last.1 < last.2 →
      (∀ q ∈ l, q.1 < q.2) → ∀ q ∈ mergeLoop last l, q.1 < q.2
  | [], last, hlast, _, q, hq => by
    simp only [mergeLoop, List.mem_singleton] at hq
    exact hq ▸ hlast
  | current :: rest, last, hlast, hl, q, hq => by
    by_cases hb : current.1 ≤ last.2
    · simp only [mergeLoop, if_pos hb] at hq
      refine mergeLoop_proper rest (last.1, max last.2 current.2) ?_ ?_ q hq
      · exact lt_of_lt_of_le hlast (le_max_left _ _)
      · exact fun p hp => hl p (List.mem_cons_of_mem current hp)
    · simp only [mergeLoop, if_neg hb, List.mem_cons] at hq
      rcases hq with rfl | hq
      · exact hlast
      · exact mergeLoop_proper rest current (hl current (List.mem_cons_self ..))
          (fun p hp => hl p (List.mem_cons_of_mem current hp)) q hq

theorem mergeLoop_covers :
    ∀ (l : List (Int × Int)) (last : Int × Int),
      List.Chain' (fun a b => a.1 ≤ b.1) (last :: l) →
      ∀ x : Int, coveredBy x (last :: l) → coveredBy x (mergeLoop last l)
  | [], last, _, x, hx => by
    simpa [mergeLoop, coveredBy] using hx
  | current :: rest, last, hc, x, hx => by
    have hlc : last.1 ≤ current.1 := hc.rel_head
    have hcrest : List.Chain' (fun a b => a.1 ≤ b.1) (current :: rest) := hc.tail
    by_cases hb : current.1 ≤ last.2
    · simp only [mergeLoop, if_pos hb]
      have hchain : List.Chain' (fun a b : Int × Int => a.1 ≤ b.1)
          ((last.1, max last.2 current.2) :: rest) := by
        refine (hcrest.tail).cons' ?_
        intro y hy
        exact le_trans hlc (hcrest.rel_head? hy)
      refine mergeLoop_covers rest (last.1, max last.2 current.2) hchain x ?_
      obtain ⟨p, hp, hp1, hp2⟩ := hx
      rcases List.mem_cons.1 hp with heq | hp'
      · rw [heq] at hp1 hp2
        exact ⟨(last.1, max last.2 current.2), List.mem_cons_self ..,
          hp1, lt_of_lt_of_le hp2 (le_max_left _ _)⟩
      rcases List.mem_cons.1 hp' with heq | hp''
      · rw [heq] at hp1 hp2
        exact ⟨(last.1, max last.2 current.2), List.mem_cons_self ..,
          le_trans hlc hp1, lt_of_lt_of_le hp2 (le_max_right _ _)⟩
      · exact ⟨p, List.mem_cons_of_mem _ hp'', hp1, hp2⟩
    · simp only [mergeLoop, if_neg hb]
      obtain ⟨p, hp, hp1, hp2⟩ := hx
      rcases List.mem_cons.1 hp with heq | hp'
      · exact ⟨last, List.mem_cons_self .., heq ▸ hp1, heq ▸ hp2⟩
      · obtain ⟨q, hq, hq1, hq2⟩ :=
          mergeLoop_covers rest current hcrest x ⟨p, hp', hp1, hp2⟩
        exact ⟨q, List.mem_cons_of_mem _ hq, hq1, hq2⟩

theorem mergeLoop_starts :
    ∀ (l : List (Int × Int)) (last : Int × Int), ∀ q ∈ mergeLoop last l,
      q.1 = last.1 ∨ q.1 ∈ l.map Prod.fst
  | [], last, q, hq => by
    simp only [mergeLoop, List.mem_singleton] at hq
    exact Or.inl (hq ▸ rfl)
  | current :: rest, last, q, hq => by
    by_cases hb : current.1 ≤ last.2
    · simp only [mergeLoop, if_pos hb] at hq
      rcases mergeLoop_starts rest (last.1, max last.2 current.2) q hq with h | h
      · exact Or.inl h
      · exact Or.inr (by simp only [List.map_cons, List.mem_cons]; exact Or.inr h)
    · simp only [mergeLoop, if_neg hb, List.mem_cons] at hq
      rcases hq with rfl | hq
      · exact Or.inl rfl
      · rcases mergeLoop_starts rest current q hq with h | h
        · exact Or.inr (by simp only [List.map_cons, List.mem_cons]; exact Or.inl h)
        · exact Or.inr (by simp only [List.map_cons, List.mem_cons]; exact Or.inr h)

/-! ## `merge_intervals` -/

theorem merge_intervals_chain (l : List (Int × Int)) :
    List.Chain' mergedRel (merge_intervals l) := by
  unfold merge_intervals
  cases hs : sortByStart l with
  | nil => simp
  | cons first rest =>
    exact mergeLoop_chain rest first (hs ▸ sortByStart_chain l)

theorem merge_intervals_proper (l : List (Int × Int))
    (hl : ∀ q ∈ l, q.1 < q.2) : ∀ q ∈ merge_intervals l, q.1 < q.2 := by
  have hperm : (sortByStart l).Perm l := stableSort_perm _ l
  have hsort : ∀ q ∈ sortByStart l, q.1 < q.2 :=
    fun q hq => hl q (hperm.mem_iff.1 hq)
  unfold merge_intervals
  cases hs : sortByStart l with
  | nil => simp
  | cons first rest =>
    exact mergeLoop_proper rest first
      (hsort first (hs ▸ List.mem_cons_self ..))
      (fun q hq => hsort q (hs ▸ List.mem_cons_of_mem first hq))

theorem merge_intervals_covers (l : List (Int × Int)) (x : Int)
    (hx : coveredBy x l) : coveredBy x (merge_intervals l) := by
  have hperm : (sortByStart l).Perm l := stableSort_perm _ l
  have hx' : coveredBy x (sortByStart l) := by
    obtain ⟨p, hp, h1, h2⟩ := hx
    exact ⟨p, hperm.mem_iff.2 hp, h1, h2⟩
  unfold merge_intervals
  cases hs : sortByStart l with
  | nil => rw [hs] at hx'; obtain ⟨p, hp, -⟩ := hx'; cases hp
  | cons first rest =>
    rw [hs] at hx'
    exact mergeLoop_covers rest first (hs ▸ sortByStart_chain l) x hx'

instance : IsTrans (Int × Int) mergedRel :=
  ⟨fun _ _ _ hab hbc => ⟨le_trans hab.1 hbc.1, lt_of_lt_of_le hab.2 hbc.1⟩⟩

/-- In a merged chain, every later interval starts strictly after the first
one ends. -/
theorem chain_mergedRel_lt {p : Int × Int} {rest : List (Int × Int)}
    (hc : List.Chain' mergedRel (p :: rest)) : ∀ q ∈ rest, p.2 < q.1 := by
  have hp : List.Pairwise mergedRel (p :: rest) := List.chain'_iff_pairwise.1 hc
  exact fun q hq => ((List.pairwise_cons.1 hp).1 q hq).2

theorem merge_intervals_starts (l : List (Int × Int)) :
    ∀ q ∈ merge_intervals l, ∃ p ∈ l, q.1 = p.1 := by
  have hperm : (sortByStart l).Perm l := stableSort_perm _ l
  unfold merge_intervals
  cases hs : sortByStart l with
  | nil => simp
  | cons first rest =>
    intro q hq
    rcases mergeLoop_starts rest first q hq with h | h
    · exact ⟨first, hperm.mem_iff.1 (hs ▸ List.mem_cons_self ..), h⟩
    · obtain ⟨p, hp, hpq⟩ := List.mem_map.1 h
      exact ⟨p, hperm.mem_iff.1 (hs ▸ List.mem_cons_of_mem first hp), hpq.symm⟩

/-! ## The cursor walk `freeScan` -/

theorem freeScan_fst_cons (cur bs be : Int) (rest : List (Int × Int)) :
    (freeScan cur ((bs, be) :: rest)).1 =
      if cur < bs then (cur, bs) :: (freeScan (max cur be) rest).1
      else (freeScan (max cur be) rest).1 := by
  simp only [freeScan]
  split <;> rfl

theorem freeScan_snd_cons (cur bs be : Int) (rest : List (Int × Int)) :
    (freeScan cur ((bs, be) :: rest)).2 = (freeScan (max cur be) rest).2 := by
  simp only [freeScan]
  split <;> rfl

theorem freeScan_le_fin : ∀ (l : List (Int × Int)) (cur : Int),
    cur ≤ (freeScan cur l).2
  | [], _ => le_refl _
  | (bs, be) :: rest, cur => by
    rw [freeScan_snd_cons]
    exact le_trans (le_max_left cur be) (freeScan_le_fin rest (max cur be))

theorem freeScan_ends_le_fin : ∀ (l : List (Int × Int)) (cur : Int),
    ∀ q ∈ l, q.2 ≤ (freeScan cur l).2
  | (bs, be) :: rest, cur, q, hq => by
    rw [freeScan_snd_cons]
    rcases List.mem_cons.1 hq with heq | hmem
    · exact heq ▸ le_trans (le_max_right cur be) (freeScan_le_fin rest _)
    · exact freeScan_ends_le_fin rest (max cur be) q hmem

theorem freeScan_gaps_lb : ∀ (l : List (Int × Int)) (cur : Int),
    ∀ g ∈ (freeScan cur l).1, cur ≤ g.1 ∧ g.1 < g.2
  | [], _, _, hg => by cases hg
  | (bs, be) :: rest, cur, g, hg => by
    rw [freeScan_fst_cons] at hg
    by_cases h : cur < bs
    · rw [if_pos h] at hg
      rcases List.mem_cons.1 hg with heq | hmem
      · exact heq ▸ ⟨le_refl _, h⟩
      · have := freeScan_gaps_lb rest (max cur be) g hmem
        exact ⟨le_trans (le_max_left cur be) this.1, this.2⟩
    · rw [if_neg h] at hg
      have := freeScan_gaps_lb rest (max cur be) g hg
      exact ⟨le_trans (le_max_left cur be) this.1, this.2⟩

theorem freeScan_gap_end_mem : ∀ (l : List (Int × Int)) (cur : Int),
    ∀ g ∈ (freeScan cur l).1, g.2 ∈ l.map Prod.fst
  | [], _, _, hg => by cases hg
  | (bs, be) :: rest, cur, g, hg => by
    rw [freeScan_fst_cons] at hg
    by_cases h : cur < bs
    · rw [if_pos h] at hg
      rcases List.mem_cons.1 hg with heq | hmem
      · exact heq ▸ List.mem_cons_self ..
      · exact List.mem_cons_of_mem _ (freeScan_gap_end_mem rest _ g hmem)
    · rw [if_neg h] at hg
      exact List.mem_cons_of_mem _ (freeScan_gap_end_mem rest _ g hg)

theorem freeScan_gap_end_le_fin : ∀ (l : List (Int × Int)) (cur : Int),
    (∀ q ∈ l, q.1 < q.2) → ∀ g ∈ (freeScan cur l).1, g.2 ≤ (freeScan cur l).2
  | [], _, _, _, hg => by cases hg
  | (bs, be) :: rest, cur, hl, g, hg => by
    rw [freeScan_fst_cons] at hg
    rw [freeScan_snd_cons]
    have hbe : be ≤ (freeScan (max cur be) rest).2 :=
      le_trans (le_max_right cur be) (freeScan_le_fin rest _)
    by_cases h : cur < bs
    · rw [if_pos h] at hg
      rcases List.mem_cons.1 hg with heq | hmem
      · have hbsbe : bs < be := hl (bs, be) (List.mem_cons_self ..)
        exact heq ▸ le_trans (le_of_lt hbsbe) hbe
      · exact freeScan_gap_end_le_fin rest (max cur be)
          (fun q hq => hl q (List.mem_cons_of_mem _ hq)) g hmem
    · rw [if_neg h] at hg
      exact freeScan_gap_end_le_fin rest (max cur be)
        (fun q hq => hl q (List.mem_cons_of_mem _ hq)) g hg

theorem freeScan_chain : ∀ (l : List (Int × Int)) (cur : Int),
    (∀ q ∈ l, q.1 < q.2) → List.Chain' gapRel (freeScan cur l).1
  | [], _, _ => List.chain'_nil
  | (bs, be) :: rest, cur, hl => by
    have hrest : ∀ q ∈ rest, q.1 < q.2 :=
      fun q hq => hl q (List.mem_cons_of_mem _ hq)
    rw [freeScan_fst_cons]
    by_cases h : cur < bs
    · rw [if_pos h]
      refine (freeScan_chain rest (max cur be) hrest).cons' ?_
      intro y hy
      have hmem := List.mem_of_mem_head? hy
      have hlb := (freeScan_gaps_lb rest (max cur be) y hmem).1
      have hbsbe : bs < be := hl (bs, be) (List.mem_cons_self ..)
      exact le_trans (le_of_lt hbsbe) (le_trans (le_max_right cur be) hlb)
    · rw [if_neg h]
      exact freeScan_chain rest (max cur be) hrest

theorem freeScan_uncovered : ∀ (l : List (Int × Int)) (cur : Int),
    List.Chain' mergedRel l → (∀ q ∈ l, q.1 < q.2) →
    ∀ g ∈ (freeScan cur l).1, ∀ x : Int, g.1 ≤ x → x < g.2 → ¬ coveredBy x l
  | [], _, _, _, _, hg => by cases hg
  | (bs, be) :: rest, cur, hc, hl, g, hg => by
    intro x hx1 hx2 hcov
    have hrest : ∀ q ∈ rest, q.1 < q.2 :=
      fun q hq => hl q (List.mem_cons_of_mem _ hq)
    have hbsbe : bs < be := hl (bs, be) (List.mem_cons_self ..)
    have hlater : ∀ q ∈ rest, be < q.1 := chain_mergedRel_lt hc
    rw [freeScan_fst_cons] at hg
    obtain ⟨p, hp, hp1, hp2⟩ := hcov
    have main : g ∈ (freeScan (max cur be) rest).1 → False := by
      intro hmem
      have hge : max cur be ≤ g.1 := (freeScan_gaps_lb rest (max cur be) g hmem).1
      have hbex : be ≤ x := le_trans (le_trans (le_max_right cur be) hge) hx1
      rcases List.mem_cons.1 hp with heq | hp'
      · rw [heq] at hp2
        exact absurd hp2 (not_lt.2 hbex)
      · exact freeScan_uncovered rest (max cur be) hc.tail hrest g hmem x hx1 hx2
          ⟨p, hp', hp1, hp2⟩
    by_cases h : cur < bs
    · rw [if_pos h] at hg
      rcases List.mem_cons.1 hg with heq | hmem
      · have hxbs : x < bs := by rw [heq] at hx2; exact hx2
        rcases List.mem_cons.1 hp with heq2 | hp'
        · rw [heq2] at hp1
          exact absurd hp1 (not_le.2 hxbs)
        · have : be < p.1 := hlater p hp'
          exact absurd hp1 (not_le.2 (lt_trans (lt_trans hxbs hbsbe) this))
      · exact main hmem
    · rw [if_neg h] at hg
      exact main hg

/-! ## `subtract_busy_time` -/

theorem subtract_busy_time_uncovered (w : Int × Int) (busy : List (Int × Int))
    (hbusy : ∀ q ∈ busy, q.1 < q.2) :
    ∀ g ∈ subtract_busy_time w busy, ∀ x : Int, g.1 ≤ x → x < g.2 →
      ¬ coveredBy x busy := by
  intro g hg x hx1 hx2 hcov
  have hcov' : coveredBy x (merge_intervals busy) :=
    merge_intervals_covers busy x hcov
  by_cases hne : busy = []
  · subst hne
    obtain ⟨p, hp, -⟩ := hcov
    cases hp
  · unfold subtract_busy_time at hg
    rw [if_neg hne] at hg
    have hmp : ∀ q ∈ merge_intervals busy, q.1 < q.2 :=
      merge_intervals_proper busy hbusy
    have hmc : List.Chain' mergedRel (merge_intervals busy) :=
      merge_intervals_chain busy
    by_cases hfin : (freeScan w.1 (merge_intervals busy)).2 < w.2
    · rw [if_pos hfin] at hg
      rcases List.mem_append.1 hg with hmem | hmem
      · exact freeScan_uncovered (merge_intervals busy) w.1 hmc hmp g hmem x
          hx1 hx2 hcov'
      · have heq : g = ((freeScan w.1 (merge_intervals busy)).2, w.2) := by
          simpa using hmem
        obtain ⟨p, hp, hp1, hp2⟩ := hcov'
        have hple : p.2 ≤ (freeScan w.1 (merge_intervals busy)).2 :=
          freeScan_ends_le_fin (merge_intervals busy) w.1 p hp
        rw [heq] at hx1
        exact absurd hp2 (not_lt.2 (le_trans hple hx1))
    · rw [if_neg hfin] at hg
      exact freeScan_uncovered (merge_intervals busy) w.1 hmc hmp g hg x
        hx1 hx2 hcov'

theorem subtract_busy_time_chain_proper (w : Int × Int)
    (busy : List (Int × Int)) (hne : busy ≠ [])
    (hbusy : ∀ q ∈ busy, q.1 < q.2) :
    List.Chain' gapRel (subtract_busy_time w busy) ∧
    ∀ g ∈ subtract_busy_time w busy, w.1 ≤ g.1 ∧ g.1 < g.2 := by
  have hmp : ∀ q ∈ merge_intervals busy, q.1 < q.2 :=
    merge_intervals_proper busy hbusy
  unfold subtract_busy_time
  rw [if_neg hne]
  by_cases hfin : (freeScan w.1 (merge_intervals busy)).2 < w.2
  · rw [if_pos hfin]
    constructor
    · rw [List.chain'_append]
      refine ⟨freeScan_chain _ _ hmp, List.chain'_singleton _, ?_⟩
      intro p hp y hy
      have hp' := List.mem_of_mem_getLast? hp
      have hy' : ((freeScan w.1 (merge_intervals busy)).2, w.2) = y := by
        simpa using hy
      have := freeScan_gap_end_le_fin (merge_intervals busy) w.1 hmp p hp'
      rw [← hy']
      exact this
    · intro g hg
      rcases List.mem_append.1 hg with hmem | hmem
      · exact ⟨(freeScan_gaps_lb _ _ g hmem).1, (freeScan_gaps_lb _ _ g hmem).2⟩
      · have heq : g = ((freeScan w.1 (merge_intervals busy)).2, w.2) := by
          simpa using hmem
        subst heq
        exact ⟨freeScan_le_fin _ _, hfin⟩
  · rw [if_neg hfin]
    exact ⟨freeScan_chain _ _ hmp,
      fun g hg => ⟨(freeScan_gaps_lb _ _ g hg).1, (freeScan_gaps_lb _ _ g hg).2⟩⟩

/-! ## Claim C7 — `merge_intervals` is sorted and mutually disjoint -/

/-- C7: `merge_intervals` returns a list sorted by start whose members are
mutually disjoint (each accumulated interval ends strictly before the next
begins — an incoming interval whose start is ≤ the accumulated end, touching
included, has been merged); the empty input yields the empty output; and the
spec's two concrete examples hold (9:00 = 540 minutes, etc.). -/
theorem merge_intervals_sorted_disjoint :
    (∀ l : List (Int × Int), List.Chain' mergedRel (merge_intervals l)) ∧
    merge_intervals [] = [] ∧
    merge_intervals [(540, 630), (600, 660)] = [(540, 660)] ∧
    merge_intervals [(540, 600), (660, 720)] = [(540, 600), (660, 720)] :=
  ⟨merge_intervals_chain, by decide, by decide, by decide⟩

/-! ## Claim C6 — free intervals and the work window -/

/-- C6 counterexample: with window 09:00–17:00 (540–1020) and a single busy
interval 18:00–19:00 lying beyond the window end, `subtract_busy_time`
returns the interval (540, 1080), which ends *after* the window end 1020 —
so returned intervals are not always sub-ranges of the window. -/
theorem subtract_busy_time_escapes_window_cex :
    subtract_busy_time (540, 1020) [(1080, 1140)] = [(540, 1080)] ∧
    ¬ ((1080 : Int) ≤ 1020) :=
  ⟨by decide, by decide⟩

/-- C6 (amended): every free interval starts at or after the window start —
unconditionally — and, provided every busy interval starts no later than
the window end, every free interval also ends at or before the window end
(the unconditional containment of the original claim fails when a busy
interval lies wholly beyond the window; see the counterexample).  With no
busy intervals the whole window is the single free interval, and the
spec's 09:00–17:00 minus 11:00–12:00 example holds. -/
theorem subtract_busy_time_within_window (w : Int × Int)
    (busy : List (Int × Int)) :
    (∀ g ∈ subtract_busy_time w busy, w.1 ≤ g.1) ∧
    ((∀ q ∈ busy, q.1 ≤ w.2) →
      ∀ g ∈ subtract_busy_time w busy, g.2 ≤ w.2) ∧
    (busy = [] → subtract_busy_time w busy = [w]) ∧
    subtract_busy_time (540, 1020) [(660, 720)] = [(540, 660), (720, 1020)] := by
  refine ⟨?_, ?_, ?_, by decide⟩
  · intro g hg
    by_cases hne : busy = []
    · subst hne
      unfold subtract_busy_time at hg
      rw [if_pos rfl] at hg
      have heq : g = w := by simpa using hg
      subst heq
      exact le_refl _
    · unfold subtract_busy_time at hg
      rw [if_neg hne] at hg
      by_cases hfin : (freeScan w.1 (merge_intervals busy)).2 < w.2
      · rw [if_pos hfin] at hg
        rcases List.mem_append.1 hg with hmem | hmem
        · exact (freeScan_gaps_lb _ _ g hmem).1
        · have heq : g = ((freeScan w.1 (merge_intervals busy)).2, w.2) := by
            simpa using hmem
          subst heq
          exact freeScan_le_fin _ _
      · rw [if_neg hfin] at hg
        exact (freeScan_gaps_lb _ _ g hg).1
  · intro hb g hg
    by_cases hne : busy = []
    · subst hne
      unfold subtract_busy_time at hg
      rw [if_pos rfl] at hg
      have heq : g = w := by simpa using hg
      subst heq
      exact le_refl _
    · unfold subtract_busy_time at hg
      rw [if_neg hne] at hg
      have hscan : ∀ p ∈ (freeScan w.1 (merge_intervals busy)).1,
          p.2 ≤ w.2 := by
        intro p hp
        have hmem := freeScan_gap_end_mem (merge_intervals busy) w.1 p hp
        obtain ⟨q, hq, hq1⟩ := List.mem_map.1 hmem
        obtain ⟨q0, hq0, hq0eq⟩ := merge_intervals_starts busy q hq
        rw [← hq1, hq0eq]
        exact hb q0 hq0
      by_cases hfin : (freeScan w.1 (merge_intervals busy)).2 < w.2
      · rw [if_pos hfin] at hg
        rcases List.mem_append.1 hg with hmem | hmem
        · exact hscan g hmem
        · have heq : g = ((freeScan w.1 (merge_intervals busy)).2, w.2) := by
            simpa using hmem
          subst heq
          exact le_refl _
      · rw [if_neg hfin] at hg
        exact hscan g hg
  · intro hnil
    subst hnil
    rfl

/-- C6 witness: the end-bound conjunct applied, with its busy-starts
hypothesis discharged, to the spec's concrete window/busy pair and its
first free interval, alongside the concrete example conjunct. -/
theorem subtract_busy_time_within_window_witness :
    (660 : Int) ≤ 1020 ∧
    subtract_busy_time (540, 1020) [(660, 720)] = [(540, 660), (720, 1020)] :=
  ⟨(subtract_busy_time_within_window (540, 1020) [(660, 720)]).2.1
      (by decide) ((540 : Int), (660 : Int)) (by decide),
    (subtract_busy_time_within_window (540, 1020) [(660, 720)]).2.2.2⟩

/-! ## Claim C5 — the urgency component -/

/-- C5 counterexample: for a deadline 15 days (21600 minutes) after the
scoring instant, the claim's unclamped formula predicts urgency
`10 − 15 = −5`, but the code computes `max(0, 10 − 15) = 0`. -/
theorem urgency_never_negative_cex :
    urgencyOf taskFarDeadline 0 = 0 ∧
    10 - (21600 - 0 : Int).fdiv 1440 = -5 ∧ (0 : Int) ≠ -5 :=
  ⟨by decide, by decide, by decide⟩

/-- C5 (amended): the urgency component of the score is 0 when the task has
no deadline; otherwise it equals `max 0 (10 − floor(daysBetween(instant,
deadline)))` — clamped *below* at 0, so a far-future deadline yields 0
rather than a negative value — and is not clamped above: a deadline overdue
by at least `k` days yields urgency at least `10 + k`, growing without bound
the more overdue it is. -/
theorem urgency_clamped_below_unbounded_above (t : Task) (ct : Int) :
    (t.deadline = none → urgencyOf t ct = 0) ∧
    (∀ d : Int, t.deadline = some d →
      urgencyOf t ct = max 0 (10 - (d - ct).fdiv 1440) ∧
      ∀ k : Int, 0 ≤ k → d ≤ ct - 1440 * k → 10 + k ≤ urgencyOf t ct) := by
  constructor
  · intro h
    simp [urgencyOf, h]
  · intro d hd
    constructor
    · simp [urgencyOf, hd]
    · intro k _hk hdk
      have hsub : d - ct ≤ 1440 * (-k) := by linarith
      have hfd : (d - ct).fdiv 1440 ≤ -k := by
        rw [Int.fdiv_eq_ediv _ (by norm_num)]
        calc (d - ct) / 1440 ≤ (1440 * (-k)) / 1440 :=
              Int.ediv_le_ediv (by norm_num) hsub
          _ = -k := Int.mul_ediv_cancel_left _ (by norm_num)
      have : 10 + k ≤ 10 - (d - ct).fdiv 1440 := by linarith
      calc (10 + k : Int) ≤ 10 - (d - ct).fdiv 1440 := this
        _ ≤ max 0 (10 - (d - ct).fdiv 1440) := le_max_right _ _
        _ = urgencyOf t ct := by simp [urgencyOf, hd]

/-- C5 witness: a task overdue by exactly 3 days scores urgency at least 13. -/
theorem urgency_clamped_below_unbounded_above_witness :
    10 + 3 ≤ urgencyOf taskOverdue 0 :=
  (((urgency_clamped_below_unbounded_above taskOverdue 0).2 (-4320) rfl).2)
    3 (by decide) (by decide)

/-! ## Claim C8 — `Preferences` construction does not check the workday order -/

/-- C8: constructing `Preferences` with `workday_start` (17:00 = 1020) not
strictly before `workday_end` (09:00 = 540) *succeeds*: the model's
validators check only timezone-awareness and positivity of the three
durations, so a reversed workday is accepted at construction time —
contrast `Event`, whose `model_post_init` does reject `start ≥ end`. -/
theorem preferences_accepts_reversed_workday :
    mkPreferences 1020 540 25 5 15 4 = Except.ok ⟨1020, 540, 25, 5, 15, 4⟩ ∧
    mkEvent 1020 540 ("x") = Except.error ("Event start must be before end") :=
  ⟨rfl, rfl⟩

/-! ## Claim C9 — determinism -/

/-- C9: `plan_day` is deterministic — two calls with equal `PlanRequest`
inputs (equal preferences and identically ordered task and event lists)
produce equal outputs: the same blocks in the same order and the same
summary.  The embedding is a pure function of the request, faithful to the
source, whose only iteration orders are those of the request's lists. -/
theorem plan_day_deterministic (r1 r2 : PlanRequest) (h : r1 = r2) :
    plan_day r1 = plan_day r2 := by rw [h]

/-- C9 witness: determinism at a concrete request. -/
theorem plan_day_deterministic_witness : plan_day reqDetW = plan_day reqDetW :=
  plan_day_deterministic reqDetW reqDetW rfl

/-! ## Unfolding equations for the packer loops -/

theorem placeCycles_succ (prefs : Preferences) (task : Task) (nl : Bool)
    (fe : Int) (n : Nat) (ct cc : Int) (blocks : List Block) :
    placeCycles prefs task nl fe (n + 1) ct cc blocks =
      if fe ≤ ct then (ct, cc, blocks)
      else if (0 < n ∨ nl = true) ∧ ct + prefs.pomodoro_min < fe then
        placeCycles prefs task nl fe n
          (ct + prefs.pomodoro_min + breakLen prefs (cc + 1)) (cc + 1)
          (blocks ++
            [create_pomodoro_block ct prefs.pomodoro_min task ("pomodoro"),
             create_pomodoro_block (ct + prefs.pomodoro_min)
               (breakLen prefs (cc + 1)) task (breakKind prefs (cc + 1))])
      else
        placeCycles prefs task nl fe n (ct + prefs.pomodoro_min) (cc + 1)
          (blocks ++
            [create_pomodoro_block ct prefs.pomodoro_min task ("pomodoro")]) :=
  rfl

theorem packInterval_succ (prefs : Preferences) (fuel : Nat) (ct fe : Int)
    (pool : List Task) (sched : List String) (cc : Int) (blocks : List Block) :
    packInterval prefs (fuel + 1) ct fe pool sched cc blocks =
      if ct < fe ∧ pool ≠ [] then
        match findBest prefs pool sched ct fe with
        | none => (pool, sched, cc, blocks)
        | some best =>
          packInterval prefs fuel
            (placeCycles prefs best (decide (pool.indexOf best < pool.length - 1))
              fe (segment_task best prefs.pomodoro_min).toNat ct cc blocks).1
            fe (pool.erase best) (addId sched best.id)
            (placeCycles prefs best (decide (pool.indexOf best < pool.length - 1))
              fe (segment_task best prefs.pomodoro_min).toNat ct cc blocks).2.1
            (placeCycles prefs best (decide (pool.indexOf best < pool.length - 1))
              fe (segment_task best prefs.pomodoro_min).toNat ct cc blocks).2.2
      else (pool, sched, cc, blocks) :=
  rfl

theorem create_pom_spec (t d : Int) (task : Task) :
    create_pomodoro_block t d task ("pomodoro") =
      { start := t, stop := t + d, type := ("pomodoro"),
        title := ("🍅 ") ++ task.title, task_id := some task.id } :=
  rfl

theorem create_break_spec (prefs : Preferences) (c : Int) (t d : Int)
    (task : Task) :
    create_pomodoro_block t d task (breakKind prefs c) =
      { start := t, stop := t + d, type := breakKind prefs c,
        title :=
          if c.emod prefs.cycles_per_long_break = 0 then ("🌟 Long Break")
          else ("☕ Break"),
        task_id := none } := by
  by_cases h : c.emod prefs.cycles_per_long_break = 0
  · rw [breakKind, if_pos h, create_pomodoro_block]
    rw [if_neg (by decide), if_neg (by decide), if_pos h]
  · rw [breakKind, if_neg h, create_pomodoro_block]
    rw [if_neg (by decide), if_pos rfl, if_neg h]

/-- The placement of one task only appends blocks, and appends only work
blocks (referencing the task) and break blocks (referencing no task). -/
theorem placeCycles_delta (prefs : Preferences) (task : Task) (nl : Bool)
    (fe : Int) :
    ∀ (n : Nat) (ct cc : Int) (blocks : List Block),
      ∃ δ, (placeCycles prefs task nl fe n ct cc blocks).2.2 = blocks ++ δ ∧
        ∀ b ∈ δ, (b.type = ("pomodoro") ∧ b.task_id = some task.id) ∨
          ((b.type = ("break") ∨ b.type = ("long_break")) ∧ b.task_id = none)
  | 0, _, _, blocks => ⟨[], by simp [placeCycles], by simp⟩
  | n + 1, ct, cc, blocks => by
    rw [placeCycles_succ]
    by_cases hg : fe ≤ ct
    · rw [if_pos hg]
      exact ⟨[], by simp, by simp⟩
    rw [if_neg hg]
    have hbrk :
        (create_pomodoro_block (ct + prefs.pomodoro_min)
            (breakLen prefs (cc + 1)) task (breakKind prefs (cc + 1))).type =
              breakKind prefs (cc + 1) ∧
        (create_pomodoro_block (ct + prefs.pomodoro_min)
            (breakLen prefs (cc + 1)) task (breakKind prefs (cc + 1))).task_id =
              none := by
      rw [create_break_spec]
      exact ⟨rfl, rfl⟩
    have hkind : breakKind prefs (cc + 1) = ("break") ∨
        breakKind prefs (cc + 1) = ("long_break") := by
      unfold breakKind
      by_cases h : (cc + 1).emod prefs.cycles_per_long_break = 0
      · rw [if_pos h]; exact Or.inr rfl
      · rw [if_neg h]; exact Or.inl rfl
    by_cases hbr : (0 < n ∨ nl = true) ∧ ct + prefs.pomodoro_min < fe
    · rw [if_pos hbr]
      obtain ⟨δ, hδ, hty⟩ := placeCycles_delta prefs task nl fe n _ _ _
      refine ⟨[create_pomodoro_block ct prefs.pomodoro_min task ("pomodoro"),
          create_pomodoro_block (ct + prefs.pomodoro_min)
            (breakLen prefs (cc + 1)) task (breakKind prefs (cc + 1))] ++ δ,
        by rw [hδ, List.append_assoc], ?_⟩
      intro b hb
      rcases List.mem_append.1 hb with hb | hb
      · rcases List.mem_cons.1 hb with heq | hb
        · subst heq
          rw [create_pom_spec]
          exact Or.inl ⟨rfl, rfl⟩
        · rcases List.mem_cons.1 hb with heq | hb
          · subst heq
            rcases hkind with hk | hk
            · exact Or.inr ⟨Or.inl (hbrk.1.trans hk), hbrk.2⟩
            · exact Or.inr ⟨Or.inr (hbrk.1.trans hk), hbrk.2⟩
          · cases hb
      · exact hty b hb
    · rw [if_neg hbr]
      obtain ⟨δ, hδ, hty⟩ := placeCycles_delta prefs task nl fe n _ _ _
      refine ⟨[create_pomodoro_block ct prefs.pomodoro_min task ("pomodoro")] ++ δ,
        by rw [hδ, List.append_assoc], ?_⟩
      intro b hb
      rcases List.mem_append.1 hb with hb | hb
      · rcases List.mem_cons.1 hb with heq | hb
        · subst heq
          rw [create_pom_spec]
          exact Or.inl ⟨rfl, rfl⟩
        · cases hb
      · exact hty b hb

/-- One free interval's packing only appends non-`event` blocks. -/
theorem packInterval_delta (prefs : Preferences) :
    ∀ (fuel : Nat) (ct fe : Int) (pool : List Task) (sched : List String)
      (cc : Int) (blocks : List Block),
      ∃ δ, (packInterval prefs fuel ct fe pool sched cc blocks).2.2.2 =
          blocks ++ δ ∧
        ∀ b ∈ δ, b.type = ("pomodoro") ∨ b.type = ("break") ∨
          b.type = ("long_break")
  | 0, _, _, _, _, _, blocks => ⟨[], by simp [packInterval], by simp⟩
  | fuel + 1, ct, fe, pool, sched, cc, blocks => by
    rw [packInterval_succ]
    by_cases hc : ct < fe ∧ pool ≠ []
    · rw [if_pos hc]
      cases hfb : findBest prefs pool sched ct fe with
      | none => exact ⟨[], by simp, by simp⟩
      | some best =>
        obtain ⟨δ₁, hδ₁, hty₁⟩ := placeCycles_delta prefs best
          (decide (pool.indexOf best < pool.length - 1)) fe
          (segment_task best prefs.pomodoro_min).toNat ct cc blocks
        obtain ⟨δ₂, hδ₂, hty₂⟩ := packInterval_delta prefs fuel
          (placeCycles prefs best (decide (pool.indexOf best < pool.length - 1))
            fe (segment_task best prefs.pomodoro_min).toNat ct cc blocks).1
          fe (pool.erase best) (addId sched best.id)
          (placeCycles prefs best (decide (pool.indexOf best < pool.length - 1))
            fe (segment_task best prefs.pomodoro_min).toNat ct cc blocks).2.1
          (placeCycles prefs best (decide (pool.indexOf best < pool.length - 1))
            fe (segment_task best prefs.pomodoro_min).toNat ct cc blocks).2.2

        refine ⟨δ₁ ++ δ₂, ?_, ?_⟩
        · rw [hδ₂, hδ₁, List.append_assoc]
        · intro b hb
          rcases List.mem_append.1 hb with hb | hb
          · rcases hty₁ b hb with h | h
            · exact Or.inl h.1
            · rcases h.1 with h1 | h1
              · exact Or.inr (Or.inl h1)
              · exact Or.inr (Or.inr h1)
          · exact hty₂ b hb
    · rw [if_neg hc]
      exact ⟨[], by simp, by simp⟩

/-- The whole packing pass only appends non-`event` blocks. -/
theorem packAll_delta (prefs : Preferences) :
    ∀ (gaps : List (Int × Int)) (pool : List Task) (sched : List String)
      (cc : Int) (blocks : List Block),
      ∃ δ, (packAll prefs gaps pool sched cc blocks).2.2.2 = blocks ++ δ ∧
        ∀ b ∈ δ, b.type = ("pomodoro") ∨ b.type = ("break") ∨
          b.type = ("long_break")
  | [], _, _, _, blocks => ⟨[], by simp [packAll], by simp⟩
  | (fs, fe) :: rest, pool, sched, cc, blocks => by
    obtain ⟨δ₁, hδ₁, hty₁⟩ :=
      packInterval_delta prefs pool.length fs fe pool sched cc blocks
    obtain ⟨δ₂, hδ₂, hty₂⟩ := packAll_delta prefs rest
      (packInterval prefs pool.length fs fe pool sched cc blocks).1
      (packInterval prefs pool.length fs fe pool sched cc blocks).2.1
      (packInterval prefs pool.length fs fe pool sched cc blocks).2.2.1
      (packInterval prefs pool.length fs fe pool sched cc blocks).2.2.2
    refine ⟨δ₁ ++ δ₂, ?_, ?_⟩
    · show (packAll prefs rest _ _ _ _).2.2.2 = _
      rw [hδ₂, hδ₁, List.append_assoc]
    · intro b hb
      rcases List.mem_append.1 hb with hb | hb
      · exact hty₁ b hb
      · exact hty₂ b hb

/-! ## Claim C4 — event blocks -/

/-- C4 counterexample: with a single event titled "Standup", the only block
in the output is an event block titled "📅 Standup"; no block carries the
event's original title unchanged, so start/end/title are not all identical
to the input. -/
theorem plan_day_event_title_prefixed_cex :
    (plan_day reqEventTitle).blocks.map (fun b => (b.type, b.title)) =
      [(("event"), ("📅 Standup"))] ∧
    reqEventTitle.events.map (fun e => e.title) = [("Standup")] ∧
    ((plan_day reqEventTitle).blocks.filter
      (fun b => b.title == "Standup")).length = 0 := by
  refine ⟨by decide, by decide, by decide⟩

/-- C4 (amended): each input event produces exactly one `event` block whose
start and end equal the event's, whose `task_id` is absent, and whose title
is the event's title prefixed with "📅 " (not the identical title): the
multiset of `event`-typed output blocks is exactly the image of the event
list under that construction. -/
theorem plan_day_event_blocks (r : PlanRequest) :
    ((plan_day r).blocks.filter (fun b => b.type == "event")).Perm
      (r.events.map (fun e =>
        { start := e.start, stop := e.stop, type := ("event"),
          title := ("📅 ") ++ e.title, task_id := none })) := by
  obtain ⟨δ, hδ, hty⟩ := packAll_delta r.preferences
    (subtract_busy_time (r.preferences.workday_start, r.preferences.workday_end)
      (add_event_buffers r.events 5 ++ r.events.map (fun e => (e.start, e.stop))))
    (sortTasksByScoreDesc
      (fun t => calculate_task_score t r.preferences.workday_start) r.tasks)
    [] 0 (r.events.map eventBlock)
  have hblocks : (plan_day r).blocks =
      sortBlocksByStart (r.events.map eventBlock ++ δ) := by
    rw [← hδ]; rfl
  rw [hblocks]
  refine ((stableSort_perm _ _).filter _).trans ?_
  rw [List.filter_append]
  have h2 : δ.filter (fun b => b.type == "event") = [] := by
    rw [List.filter_eq_nil_iff]
    intro b hb
    rcases hty b hb with h | h | h <;> rw [h] <;> decide
  have h3 : (r.events.map eventBlock).filter (fun b => b.type == "event") =
      r.events.map eventBlock := by
    rw [List.filter_eq_self]
    intro b hb
    obtain ⟨e, _, heq⟩ := List.mem_map.1 hb
    rw [← heq]
    rfl
  rw [h2, h3, List.append_nil]
  exact List.Perm.refl _

/-! ## Claim C2 — atomicity failure at the failing input -/

/-- C2 at the failing input `reqAtomBug`: the 50-minute task needs
`ceil(50/25) = 2` work blocks, yet the produced plan contains exactly one
work block referencing it — the 100-minute long break after the first cycle
overruns the 60-minute window (the fit check reserved only the short break)
and the guard drops the second cycle — while the summary still counts the
task as scheduled. -/
theorem plan_day_partial_schedule_bug :
    segment_task taskAtomBug 25 = 2 ∧
    ((plan_day reqAtomBug).blocks.filter
      (fun b => b.type == "pomodoro" && b.task_id == some "t1")).length = 1 ∧
    (plan_day reqAtomBug).summary.scheduled_tasks = 1 := by
  refine ⟨by decide, by decide, by decide⟩

/-! ## Claim C10 — the request is left unchanged -/

/-- C10: `plan_day` leaves the request unchanged.  In the heap-explicit
embedding the two list objects reachable from the request come back exactly
as they went in, the response agrees with `plan_day`, and the working pool
is a (sorted) copy: a permutation of `request.tasks`, so destructive
removal happens only on that copy. -/
theorem plan_day_frame (r : PlanRequest) :
    (plan_day_heap r).2.1 = r.tasks ∧
    (plan_day_heap r).2.2 = r.events ∧
    (plan_day_heap r).1 = plan_day r ∧
    (sortTasksByScoreDesc
      (fun t => calculate_task_score t r.preferences.workday_start)
      r.tasks).Perm r.tasks :=
  ⟨rfl, rfl, rfl, stableSort_perm _ _⟩

/-! ## The placement delta and its cadence -/

theorem placeCycles_stop (prefs : Preferences) (task : Task) (nl : Bool)
    (fe : Int) :
    ∀ (n : Nat) (ct cc : Int), fe ≤ ct →
      placeCycles prefs task nl fe n ct cc [] = (ct, cc, [])
  | 0, _, _, _ => rfl
  | n + 1, ct, cc, h => by rw [placeCycles_succ, if_pos h]

theorem placeCycles_acc (prefs : Preferences) (task : Task) (nl : Bool)
    (fe : Int) :
    ∀ (n : Nat) (ct cc : Int) (blocks : List Block),
      placeCycles prefs task nl fe n ct cc blocks =
        ((placeCycles prefs task nl fe n ct cc []).1,
          (placeCycles prefs task nl fe n ct cc []).2.1,
          blocks ++ (placeCycles prefs task nl fe n ct cc []).2.2)
  | 0, ct, cc, blocks => by simp [placeCycles]
  | n + 1, ct, cc, blocks => by
    rw [placeCycles_succ, placeCycles_succ prefs task nl fe n ct cc []]
    by_cases hg : fe ≤ ct
    · rw [if_pos hg, if_pos hg]
      simp
    rw [if_neg hg, if_neg hg]
    by_cases hbr : (0 < n ∨ nl = true) ∧ ct + prefs.pomodoro_min < fe
    · rw [if_pos hbr, if_pos hbr]
      rw [placeCycles_acc prefs task nl fe n
          (ct + prefs.pomodoro_min + breakLen prefs (cc + 1)) (cc + 1)
          (blocks ++
            [create_pomodoro_block ct prefs.pomodoro_min task ("pomodoro"),
             create_pomodoro_block (ct + prefs.pomodoro_min)
               (breakLen prefs (cc + 1)) task (breakKind prefs (cc + 1))]),
        placeCycles_acc prefs task nl fe n
          (ct + prefs.pomodoro_min + breakLen prefs (cc + 1)) (cc + 1)
          ([] ++
            [create_pomodoro_block ct prefs.pomodoro_min task ("pomodoro"),
             create_pomodoro_block (ct + prefs.pomodoro_min)
               (breakLen prefs (cc + 1)) task (breakKind prefs (cc + 1))])]
      simp
    · rw [if_neg hbr, if_neg hbr]
      rw [placeCycles_acc prefs task nl fe n (ct + prefs.pomodoro_min) (cc + 1)
          (blocks ++
            [create_pomodoro_block ct prefs.pomodoro_min task ("pomodoro")]),
        placeCycles_acc prefs task nl fe n (ct + prefs.pomodoro_min) (cc + 1)
          ([] ++
            [create_pomodoro_block ct prefs.pomodoro_min task ("pomodoro")])]
      simp

theorem placeDelta_zero (prefs : Preferences) (task : Task) (nl : Bool)
    (fe : Int) (ct cc : Int) : placeDelta prefs task nl fe 0 ct cc = [] := rfl

theorem placeDelta_stop (prefs : Preferences) (task : Task) (nl : Bool)
    (fe : Int) (n : Nat) (ct cc : Int) (h : fe ≤ ct) :
    placeDelta prefs task nl fe n ct cc = [] := by
  unfold placeDelta
  rw [placeCycles_stop prefs task nl fe n ct cc h]

theorem placeDelta_succ (prefs : Preferences) (task : Task) (nl : Bool)
    (fe : Int) (n : Nat) (ct cc : Int) (hg : ¬ fe ≤ ct) :
    placeDelta prefs task nl fe (n + 1) ct cc =
      if (0 < n ∨ nl = true) ∧ ct + prefs.pomodoro_min < fe then
        [create_pomodoro_block ct prefs.pomodoro_min task ("pomodoro"),
         create_pomodoro_block (ct + prefs.pomodoro_min)
           (breakLen prefs (cc + 1)) task (breakKind prefs (cc + 1))] ++
          placeDelta prefs task nl fe n
            (ct + prefs.pomodoro_min + breakLen prefs (cc + 1)) (cc + 1)
      else
        [create_pomodoro_block ct prefs.pomodoro_min task ("pomodoro")] ++
          placeDelta prefs task nl fe n (ct + prefs.pomodoro_min) (cc + 1) := by
  unfold placeDelta
  rw [placeCycles_succ, if_neg hg]
  by_cases hbr : (0 < n ∨ nl = true) ∧ ct + prefs.pomodoro_min < fe
  · rw [if_pos hbr, if_pos hbr,
      placeCycles_acc prefs task nl fe n
        (ct + prefs.pomodoro_min + breakLen prefs (cc + 1)) (cc + 1)
        ([] ++
          [create_pomodoro_block ct prefs.pomodoro_min task ("pomodoro"),
           create_pomodoro_block (ct + prefs.pomodoro_min)
             (breakLen prefs (cc + 1)) task (breakKind prefs (cc + 1))])]
    simp
  · rw [if_neg hbr, if_neg hbr,
      placeCycles_acc prefs task nl fe n (ct + prefs.pomodoro_min) (cc + 1)
        ([] ++
          [create_pomodoro_block ct prefs.pomodoro_min task ("pomodoro")])]
    simp

theorem breakKind_cases (prefs : Preferences) (c : Int) :
    breakKind prefs c = ("break") ∨ breakKind prefs c = ("long_break") := by
  unfold breakKind
  by_cases h : c.emod prefs.cycles_per_long_break = 0
  · rw [if_pos h]; exact Or.inr rfl
  · rw [if_neg h]; exact Or.inl rfl

/-- The cadence of one placement: in the emitted delta, every work block
that is not the delta's final block is immediately followed by a break
block of the kind and length selected by the global counter; and a work
block can only be final either because the cursor reached the interval end
or because it was the task's last cycle with `not_last_in_pool = false`
(in which case all `n` cycles were emitted). -/
theorem placeDelta_cadence (prefs : Preferences) (task : Task) (nl : Bool)
    (fe : Int) :
    ∀ (n : Nat) (ct cc : Int),
      (∀ (i : Nat) (b b' : Block),
        (placeDelta prefs task nl fe n ct cc)[i]? = some b →
        (placeDelta prefs task nl fe n ct cc)[i + 1]? = some b' →
        b.type = ("pomodoro") →
          b'.type = breakKind prefs
            (cc + (pomCount ((placeDelta prefs task nl fe n ct cc).take (i + 1)) : Int)) ∧
          duration_minutes b' = breakLen prefs
            (cc + (pomCount ((placeDelta prefs task nl fe n ct cc).take (i + 1)) : Int))) ∧
      (∀ b : Block,
        (placeDelta prefs task nl fe n ct cc).getLast? = some b →
        b.type = ("pomodoro") →
          fe ≤ b.stop ∨
            (nl = false ∧ pomCount (placeDelta prefs task nl fe n ct cc) = n))
  | 0, ct, cc => by
    rw [placeDelta_zero]
    exact ⟨fun i b b' hb => by simp at hb, fun b hb => by simp at hb⟩
  | n + 1, ct, cc => by
    by_cases hg : fe ≤ ct
    · rw [placeDelta_stop prefs task nl fe (n + 1) ct cc hg]
      exact ⟨fun i b b' hb => by simp at hb, fun b hb => by simp at hb⟩
    rw [placeDelta_succ prefs task nl fe n ct cc hg]
    have hPOMty :
        (create_pomodoro_block ct prefs.pomodoro_min task ("pomodoro")).type =
          ("pomodoro") := by rw [create_pom_spec]
    have hPOMstop :
        (create_pomodoro_block ct prefs.pomodoro_min task ("pomodoro")).stop =
          ct + prefs.pomodoro_min := by rw [create_pom_spec]
    have hPOMb :
        ((create_pomodoro_block ct prefs.pomodoro_min task
          ("pomodoro")).type == "pomodoro") = true := by
      rw [hPOMty]; rfl
    have hBRKty :
        (create_pomodoro_block (ct + prefs.pomodoro_min)
            (breakLen prefs (cc + 1)) task (breakKind prefs (cc + 1))).type =
          breakKind prefs (cc + 1) := by rw [create_break_spec]
    have hBRKnotpom :
        ¬ (create_pomodoro_block (ct + prefs.pomodoro_min)
            (breakLen prefs (cc + 1)) task
            (breakKind prefs (cc + 1))).type = ("pomodoro") := by
      rw [hBRKty]
      rcases breakKind_cases prefs (cc + 1) with hk | hk <;> rw [hk] <;> decide
    have hBRKb :
        ((create_pomodoro_block (ct + prefs.pomodoro_min)
            (breakLen prefs (cc + 1)) task
            (breakKind prefs (cc + 1))).type == "pomodoro") = false := by
      rw [hBRKty]
      rcases breakKind_cases prefs (cc + 1) with hk | hk <;> rw [hk] <;> decide
    by_cases hbr : (0 < n ∨ nl = true) ∧ ct + prefs.pomodoro_min < fe
    · rw [if_pos hbr]
      obtain ⟨ihA, ihB⟩ := placeDelta_cadence prefs task nl fe n
        (ct + prefs.pomodoro_min + breakLen prefs (cc + 1)) (cc + 1)
      simp only [List.cons_append, List.nil_append]
      constructor
      · intro i b b' hb hb' hbt
        rcases i with _ | i
        · rw [List.getElem?_cons_zero, Option.some.injEq] at hb
          rw [List.getElem?_cons_succ, List.getElem?_cons_zero,
            Option.some.injEq] at hb'
          subst hb
          subst hb'
          have hcount : pomCount
              ((create_pomodoro_block ct prefs.pomodoro_min task
                  ("pomodoro") ::
                create_pomodoro_block (ct + prefs.pomodoro_min)
                  (breakLen prefs (cc + 1)) task (breakKind prefs (cc + 1)) ::
                placeDelta prefs task nl fe n
                  (ct + prefs.pomodoro_min + breakLen prefs (cc + 1))
                  (cc + 1)).take (0 + 1)) = 1 := by
            rw [List.take_succ_cons, List.take_zero]
            simp [pomCount, List.filter_cons, hPOMb]
          rw [hcount]
          refine ⟨by rw [hBRKty, Nat.cast_one], ?_⟩
          rw [create_break_spec, Nat.cast_one]
          show ct + prefs.pomodoro_min + breakLen prefs (cc + 1) -
            (ct + prefs.pomodoro_min) = breakLen prefs (cc + 1)
          ring
        rcases i with _ | i
        · rw [List.getElem?_cons_succ, List.getElem?_cons_zero,
            Option.some.injEq] at hb
          subst hb
          exact absurd hbt hBRKnotpom
        · rw [List.getElem?_cons_succ, List.getElem?_cons_succ] at hb
          rw [List.getElem?_cons_succ, List.getElem?_cons_succ] at hb'
          have hmain := ihA i b b' hb hb' hbt
          have hcnt : pomCount
              ((create_pomodoro_block ct prefs.pomodoro_min task
                  ("pomodoro") ::
                create_pomodoro_block (ct + prefs.pomodoro_min)
                  (breakLen prefs (cc + 1)) task (breakKind prefs (cc + 1)) ::
                placeDelta prefs task nl fe n
                  (ct + prefs.pomodoro_min + breakLen prefs (cc + 1))
                  (cc + 1)).take (i + 2 + 1)) =
              pomCount ((placeDelta prefs task nl fe n
                (ct + prefs.pomodoro_min + breakLen prefs (cc + 1))
                (cc + 1)).take (i + 1)) + 1 := by
            rw [List.take_succ_cons, List.take_succ_cons]
            simp [pomCount, List.filter_cons, hPOMb, hBRKb]
          rw [hcnt]
          have harith : cc + ((pomCount ((placeDelta prefs task nl fe n
              (ct + prefs.pomodoro_min + breakLen prefs (cc + 1))
              (cc + 1)).take (i + 1)) + 1 : Nat) : Int) =
              cc + 1 + (pomCount ((placeDelta prefs task nl fe n
                (ct + prefs.pomodoro_min + breakLen prefs (cc + 1))
                (cc + 1)).take (i + 1)) : Int) := by
            push_cast
            ring
          rw [harith]
          exact hmain
      · intro b hlast hbt
        cases hnil : placeDelta prefs task nl fe n
            (ct + prefs.pomodoro_min + breakLen prefs (cc + 1)) (cc + 1) with
        | nil =>
          rw [hnil] at hlast
          have hb : b = create_pomodoro_block (ct + prefs.pomodoro_min)
              (breakLen prefs (cc + 1)) task (breakKind prefs (cc + 1)) := by
            simpa using hlast.symm
          rw [hb] at hbt
          exact absurd hbt hBRKnotpom
        | cons x xs =>
          rw [hnil] at hlast
          rw [List.getLast?_cons_cons, List.getLast?_cons_cons] at hlast
          rw [← hnil] at hlast
          rcases ihB b hlast hbt with h | ⟨hnl, hcnt⟩
          · exact Or.inl h
          · refine Or.inr ⟨hnl, ?_⟩
            have hstep : pomCount
                (create_pomodoro_block ct prefs.pomodoro_min task
                    ("pomodoro") ::
                  create_pomodoro_block (ct + prefs.pomodoro_min)
                    (breakLen prefs (cc + 1)) task (breakKind prefs (cc + 1)) ::
                  placeDelta prefs task nl fe n
                    (ct + prefs.pomodoro_min + breakLen prefs (cc + 1))
                    (cc + 1)) =
                pomCount (placeDelta prefs task nl fe n
                  (ct + prefs.pomodoro_min + breakLen prefs (cc + 1))
                  (cc + 1)) + 1 := by
              simp [pomCount, List.filter_cons, hPOMb, hBRKb]
            rw [← hnil, hstep, hcnt]
    · rw [if_neg hbr]
      simp only [List.cons_append, List.nil_append]
      by_cases ht1 : ct + prefs.pomodoro_min < fe
      · have hP : ¬ (0 < n ∨ nl = true) := fun hp => hbr ⟨hp, ht1⟩
        have hn0 : n = 0 := Nat.eq_zero_of_not_pos (fun h => hP (Or.inl h))
        have hnl : nl = false := by
          cases hnlc : nl
          · rfl
          · exact absurd (Or.inr hnlc) hP
        subst hn0
        rw [placeDelta_zero]
        constructor
        · intro i b b' _ hb'
          rcases i with _ | i
          · rw [List.getElem?_cons_succ, List.getElem?_nil] at hb'
            cases hb'
          · rw [List.getElem?_cons_succ, List.getElem?_nil] at hb'
            cases hb'
        · intro b hlast _
          have hb : b = create_pomodoro_block ct prefs.pomodoro_min task
              ("pomodoro") := by simpa using hlast.symm
          refine Or.inr ⟨hnl, ?_⟩
          simp [pomCount, List.filter_cons, hPOMb]
      · have hstop : placeDelta prefs task nl fe n (ct + prefs.pomodoro_min)
            (cc + 1) = [] :=
          placeDelta_stop prefs task nl fe n _ _ (not_lt.1 ht1)
        rw [hstop]
        constructor
        · intro i b b' _ hb'
          rcases i with _ | i
          · rw [List.getElem?_cons_succ, List.getElem?_nil] at hb'
            cases hb'
          · rw [List.getElem?_cons_succ, List.getElem?_nil] at hb'
            cases hb'
        · intro b hlast _
          have hb : b = create_pomodoro_block ct prefs.pomodoro_min task
              ("pomodoro") := by simpa using hlast.symm
          rw [hb, hPOMstop]
          exact Or.inl (not_lt.1 ht1)

/-! ## Claim C3 — break cadence during placement -/

/-- C3: during placement of a chosen task (the `for cycle in
range(cycles_needed)` loop, planner.py:189-215, run here with the pool
recorded so that `not_last_in_pool` is `tasks.index(best_task) <
len(tasks) - 1` as at line 202), every emitted work block is immediately
followed by a break block — `long_break` of `long_break_min` minutes when
the global work-unit counter (the entry counter plus the work blocks
emitted so far, the current one included) is then a multiple of
`cycles_per_long_break`, else `break` of `break_min` minutes — except when
the work block ends the emission, which happens only when the cursor has
reached the free interval's end (`free_end ≤ stop`) or when it was the last
cycle of the last remaining task in the pool (and then all `n` cycles were
emitted). -/
theorem placement_break_cadence (prefs : Preferences) (task : Task)
    (pool : List Task) (free_end : Int) (n : Nat) (ct cc : Int) :
    (∀ (i : Nat) (b b' : Block),
      (placeDelta prefs task (decide (pool.indexOf task < pool.length - 1))
        free_end n ct cc)[i]? = some b →
      (placeDelta prefs task (decide (pool.indexOf task < pool.length - 1))
        free_end n ct cc)[i + 1]? = some b' →
      b.type = ("pomodoro") →
        b'.type = breakKind prefs
          (cc + (pomCount ((placeDelta prefs task
            (decide (pool.indexOf task < pool.length - 1)) free_end n ct
            cc).take (i + 1)) : Int)) ∧
        duration_minutes b' = breakLen prefs
          (cc + (pomCount ((placeDelta prefs task
            (decide (pool.indexOf task < pool.length - 1)) free_end n ct
            cc).take (i + 1)) : Int))) ∧
    (∀ b : Block,
      (placeDelta prefs task (decide (pool.indexOf task < pool.length - 1))
        free_end n ct cc).getLast? = some b →
      b.type = ("pomodoro") →
        free_end ≤ b.stop ∨
          (pool.length - 1 ≤ pool.indexOf task ∧
            pomCount (placeDelta prefs task
              (decide (pool.indexOf task < pool.length - 1))
              free_end n ct cc) = n)) := by
  obtain ⟨hA, hB⟩ := placeDelta_cadence prefs task
    (decide (pool.indexOf task < pool.length - 1)) free_end n ct cc
  refine ⟨hA, ?_⟩
  intro b hlast hbt
  rcases hB b hlast hbt with h | ⟨hfalse, hcnt⟩
  · exact Or.inl h
  · refine Or.inr ⟨?_, hcnt⟩
    have hnotlt := of_decide_eq_false hfalse
    omega

/-- C3 witness: with a two-task pool, two cycles of `taskW3` starting at
cursor 0 and counter 0, the first work block (0-25) is immediately followed
by a short break (25-30) of `break_min` minutes, the counter 1 not being a
multiple of `cycles_per_long_break = 4`. -/
theorem placement_break_cadence_witness :
    blockW3b.type = breakKind prefsW3
      (0 + (pomCount ((placeDelta prefsW3 taskW3
        (decide (poolW3.indexOf taskW3 < poolW3.length - 1)) 2000 2 0 0).take
        (0 + 1)) : Int)) ∧
    duration_minutes blockW3b = breakLen prefsW3
      (0 + (pomCount ((placeDelta prefsW3 taskW3
        (decide (poolW3.indexOf taskW3 < poolW3.length - 1)) 2000 2 0 0).take
        (0 + 1)) : Int)) :=
  (placement_break_cadence prefsW3 taskW3 poolW3 2000 2 0 0).1 0
    blockW3a blockW3b (by decide) (by decide) (by decide)

/-! ## Generic chain/pairwise glue -/

theorem chain_le_head {α : Type} (f g : α → Int) :
    ∀ (l : List α) (x : α),
      List.Chain' (fun a b => g a ≤ f b) (x :: l) →
      (∀ y ∈ l, f y < g y) → ∀ y ∈ l, g x ≤ f y
  | [], _, _, _, y, hy => by cases hy
  | h :: rest, x, hc, hp, y, hy => by
    have hxh : g x ≤ f h := hc.rel_head
    rcases List.mem_cons.1 hy with heq | hy'
    · rw [heq]; exact hxh
    · have hrec := chain_le_head f g rest h hc.tail
        (fun z hz => hp z (List.mem_cons_of_mem _ hz)) y hy'
      have hfh : f h < g h := hp h (List.mem_cons_self ..)
      linarith

theorem chain_le_pairwise {α : Type} (f g : α → Int) :
    ∀ l : List α, List.Chain' (fun a b => g a ≤ f b) l →
      (∀ y ∈ l, f y < g y) → List.Pairwise (fun a b => g a ≤ f b) l
  | [], _, _ => List.Pairwise.nil
  | x :: rest, hc, hp => by
    rw [List.pairwise_cons]
    exact ⟨chain_le_head f g rest x hc
        (fun z hz => hp z (List.mem_cons_of_mem _ hz)),
      chain_le_pairwise f g rest hc.tail
        (fun z hz => hp z (List.mem_cons_of_mem _ hz))⟩

theorem blockDisjoint_symm {a b : Block} (h : blockDisjoint a b) :
    blockDisjoint b a := h.elim Or.inr Or.inl

/-- A start-sorted list of proper, pairwise-disjoint blocks is chained:
each block ends no later than the next begins. -/
theorem sorted_disjoint_chain :
    ∀ l : List Block, List.Chain' (fun a b : Block => a.start ≤ b.start) l →
      List.Pairwise blockDisjoint l → (∀ b ∈ l, b.start < b.stop) →
      List.Chain' (fun a b : Block => a.stop ≤ b.start) l
  | [], _, _, _ => List.chain'_nil
  | [x], _, _, _ => List.chain'_singleton x
  | x :: y :: rest, hs, hp, hpr => by
    refine List.Chain'.cons ?_ (sorted_disjoint_chain (y :: rest) hs.tail
      (List.pairwise_cons.1 hp).2
      (fun b hb => hpr b (List.mem_cons_of_mem _ hb)))
    have hd : blockDisjoint x y :=
      (List.pairwise_cons.1 hp).1 y (List.mem_cons_self ..)
    have hxy : x.start ≤ y.start := hs.rel_head
    have hy : y.start < y.stop :=
      hpr y (List.mem_cons_of_mem _ (List.mem_cons_self ..))
    rcases hd with h | h
    · exact h
    · linarith

theorem sortBlocksByStart_chain (l : List Block) :
    List.Chain' (fun a b : Block => a.start ≤ b.start)
      (sortBlocksByStart l) :=
  stableSort_chain
    (fun _ _ h => le_of_lt (of_decide_eq_true h))
    (fun _ _ h => le_of_not_lt (of_decide_eq_false h)) l

/-! ## Bounds on one placement

With positive durations, `long_break_min ≤ break_min`, and the fit-check
reservation `ct + n * (pomodoro_min + break_min) ≤ free_end` in hand, one
placement never leaves `[ct, free_end]`: the cursor only advances, stays at
most `free_end`, and the emitted blocks are proper, chained and contained
between the entry cursor and the exit cursor. -/

theorem breakLen_bounds (prefs : Preferences) (c : Int)
    (hb : 0 < prefs.break_min) (hl : 0 < prefs.long_break_min)
    (hlb : prefs.long_break_min ≤ prefs.break_min) :
    0 < breakLen prefs c ∧ breakLen prefs c ≤ prefs.break_min := by
  unfold breakLen
  by_cases h : c.emod prefs.cycles_per_long_break = 0
  · rw [if_pos h]; exact ⟨hl, hlb⟩
  · rw [if_neg h]; exact ⟨hb, le_refl _⟩

theorem placeDelta_within (prefs : Preferences) (task : Task) (nl : Bool)
    (fe : Int) (hp : 0 < prefs.pomodoro_min) (hb : 0 < prefs.break_min)
    (hl : 0 < prefs.long_break_min)
    (hlb : prefs.long_break_min ≤ prefs.break_min) :
    ∀ (n : Nat) (ct cc : Int),
      ct + (n : Int) * (prefs.pomodoro_min + prefs.break_min) ≤ fe →
      ct ≤ (placeCycles prefs task nl fe n ct cc []).1 ∧
      (placeCycles prefs task nl fe n ct cc []).1 ≤ fe ∧
      List.Chain' (fun a b : Block => a.stop ≤ b.start)
        (placeDelta prefs task nl fe n ct cc) ∧
      ∀ blk ∈ placeDelta prefs task nl fe n ct cc,
        ct ≤ blk.start ∧
        blk.stop ≤ (placeCycles prefs task nl fe n ct cc []).1 ∧
        blk.start < blk.stop
  | 0, ct, cc, hinv => by
    rw [placeDelta_zero]
    refine ⟨le_refl _, ?_, List.chain'_nil, fun blk hblk => by cases hblk⟩
    simpa using hinv
  | n + 1, ct, cc, hinv => by
    have hcast : ((n + 1 : Nat) : Int) = (n : Int) + 1 := by push_cast; ring
    rw [hcast] at hinv
    have hnn : (0 : Int) ≤ (n : Int) := Int.natCast_nonneg n
    have hPB : (0 : Int) < prefs.pomodoro_min + prefs.break_min := by linarith
    have hexp : ((n : Int) + 1) * (prefs.pomodoro_min + prefs.break_min) =
        (n : Int) * (prefs.pomodoro_min + prefs.break_min) +
          (prefs.pomodoro_min + prefs.break_min) := by ring
    rw [hexp] at hinv
    have hnprod : (0 : Int) ≤ (n : Int) *
        (prefs.pomodoro_min + prefs.break_min) :=
      mul_nonneg hnn (le_of_lt hPB)
    have hg : ¬ fe ≤ ct := by
      intro h
      linarith
    have hbl := breakLen_bounds prefs (cc + 1) hb hl hlb
    rw [placeDelta_succ prefs task nl fe n ct cc hg,
      placeCycles_succ, if_neg hg]
    by_cases hbr : (0 < n ∨ nl = true) ∧ ct + prefs.pomodoro_min < fe
    · rw [if_pos hbr, if_pos hbr,
        placeCycles_acc prefs task nl fe n
          (ct + prefs.pomodoro_min + breakLen prefs (cc + 1)) (cc + 1)
          ([] ++
            [create_pomodoro_block ct prefs.pomodoro_min task ("pomodoro"),
             create_pomodoro_block (ct + prefs.pomodoro_min)
               (breakLen prefs (cc + 1)) task (breakKind prefs (cc + 1))])]
      have hinv' : ct + prefs.pomodoro_min + breakLen prefs (cc + 1) +
          (n : Int) * (prefs.pomodoro_min + prefs.break_min) ≤ fe := by
        linarith [hbl.2]
      obtain ⟨ih1, ih2, ih3, ih4⟩ := placeDelta_within prefs task nl fe hp hb
        hl hlb n (ct + prefs.pomodoro_min + breakLen prefs (cc + 1)) (cc + 1)
        hinv'
      simp only [List.cons_append, List.nil_append]
      refine ⟨by linarith [hbl.1], ih2, ?_, ?_⟩
      · refine List.Chain'.cons ?_ ?_
        · rw [create_pom_spec, create_break_spec]
        · refine List.Chain'.cons' ih3 ?_
          intro y hy
          have hmem := List.mem_of_mem_head? hy
          have hy1 := (ih4 y hmem).1
          rw [create_break_spec]
          dsimp only
          exact hy1
      · intro blk hblk
        rcases List.mem_cons.1 hblk with heq | hblk
        · rw [heq, create_pom_spec]
          dsimp only
          exact ⟨le_refl _, by linarith [hbl.1, ih1], by linarith⟩
        rcases List.mem_cons.1 hblk with heq | hblk
        · rw [heq, create_break_spec]
          dsimp only
          exact ⟨by linarith, ih1, by linarith [hbl.1]⟩
        · obtain ⟨h1, h2, h3⟩ := ih4 blk hblk
          exact ⟨by linarith [hbl.1], h2, h3⟩
    · rw [if_neg hbr, if_neg hbr,
        placeCycles_acc prefs task nl fe n (ct + prefs.pomodoro_min) (cc + 1)
          ([] ++
            [create_pomodoro_block ct prefs.pomodoro_min task ("pomodoro")])]
      have hinv' : ct + prefs.pomodoro_min +
          (n : Int) * (prefs.pomodoro_min + prefs.break_min) ≤ fe := by
        linarith
      obtain ⟨ih1, ih2, ih3, ih4⟩ := placeDelta_within prefs task nl fe hp hb
        hl hlb n (ct + prefs.pomodoro_min) (cc + 1) hinv'
      simp only [List.cons_append, List.nil_append]
      refine ⟨by linarith, ih2, ?_, ?_⟩
      · refine List.Chain'.cons' ih3 ?_
        intro y hy
        have hmem := List.mem_of_mem_head? hy
        have hy1 := (ih4 y hmem).1
        rw [create_pom_spec]
        dsimp only
        exact hy1
      · intro blk hblk
        rcases List.mem_cons.1 hblk with heq | hblk
        · rw [heq, create_pom_spec]
          dsimp only
          exact ⟨le_refl _, ih1, by linarith⟩
        · obtain ⟨h1, h2, h3⟩ := ih4 blk hblk
          exact ⟨by linarith, h2, h3⟩

/-- The candidate search only returns pool members that pass the fit check
`cycles_needed * (pomodoro_min + break_min) ≤ free_end - cursor`. -/
theorem findBest_mem_fit (prefs : Preferences) (pool : List Task)
    (sched : List String) (ct fe : Int) (t : Task)
    (h : findBest prefs pool sched ct fe = some t) :
    t ∈ pool ∧
      segment_task t prefs.pomodoro_min *
        (prefs.pomodoro_min + prefs.break_min) ≤ fe - ct := by
  have aux : ∀ (l : List Task) (acc : Option Task × Int),
      (∀ u, acc.1 = some u → u ∈ pool ∧
        segment_task u prefs.pomodoro_min *
          (prefs.pomodoro_min + prefs.break_min) ≤ fe - ct) →
      (∀ x ∈ l, x ∈ pool) →
      ∀ u, (l.foldl
          (fun acc task =>
            if task.id ∈ sched then acc
            else
              let cycles_needed := segment_task task prefs.pomodoro_min
              let time_needed := cycles_needed *
                (prefs.pomodoro_min + prefs.break_min)
              let remaining_minutes := fe - ct
              if time_needed ≤ remaining_minutes then
                let score := calculate_task_score task ct
                if score > acc.2 then (some task, score) else acc
              else acc) acc).1 = some u →
        u ∈ pool ∧ segment_task u prefs.pomodoro_min *
          (prefs.pomodoro_min + prefs.break_min) ≤ fe - ct := by
    intro l
    induction l with
    | nil => exact fun acc hacc _ u hu => hacc u hu
    | cons x xs ih =>
      intro acc hacc hsub
      rw [List.foldl_cons]
      refine ih _ ?_ (fun y hy => hsub y (List.mem_cons_of_mem _ hy))
      intro u hu
      dsimp only at hu
      by_cases h1 : x.id ∈ sched
      · rw [if_pos h1] at hu
        exact hacc u hu
      · rw [if_neg h1] at hu
        by_cases h2 : segment_task x prefs.pomodoro_min *
            (prefs.pomodoro_min + prefs.break_min) ≤ fe - ct
        · rw [if_pos h2] at hu
          by_cases h3 : calculate_task_score x ct > acc.2
          · rw [if_pos h3] at hu
            have hux : x = u := by simpa using hu
            rw [← hux]
            exact ⟨hsub x (List.mem_cons_self ..), h2⟩
          · rw [if_neg h3] at hu
            exact hacc u hu
        · rw [if_neg h2] at hu
          exact hacc u hu
  unfold findBest at h
  exact aux pool ((none : Option Task), (-1 : Int))
    (fun u hu => by simp at hu) (fun x hx => hx) t h

/-- Packing one free interval appends a chained, proper block delta lying
within `[ct, fe]` (under positive durations and `long_break_min ≤
break_min`). -/
theorem packInterval_within (prefs : Preferences)
    (hp : 0 < prefs.pomodoro_min) (hb : 0 < prefs.break_min)
    (hl : 0 < prefs.long_break_min)
    (hlb : prefs.long_break_min ≤ prefs.break_min) :
    ∀ (fuel : Nat) (ct fe : Int) (pool : List Task) (sched : List String)
      (cc : Int) (blocks : List Block),
      ∃ δ, (packInterval prefs fuel ct fe pool sched cc blocks).2.2.2 =
          blocks ++ δ ∧
        List.Chain' (fun a b : Block => a.stop ≤ b.start) δ ∧
        ∀ blk ∈ δ, ct ≤ blk.start ∧ blk.stop ≤ fe ∧ blk.start < blk.stop
  | 0, _, _, _, _, _, blocks =>
    ⟨[], by simp [packInterval], List.chain'_nil, by simp⟩
  | fuel + 1, ct, fe, pool, sched, cc, blocks => by
    rw [packInterval_succ]
    by_cases hc : ct < fe ∧ pool ≠ []
    · rw [if_pos hc]
      cases hfb : findBest prefs pool sched ct fe with
      | none =>
        dsimp only
        exact ⟨[], by simp, List.chain'_nil, by simp⟩
      | some best =>
        dsimp only
        obtain ⟨hmem, hfit⟩ := findBest_mem_fit prefs pool sched ct fe best hfb
        have hinv : ct +
            (((segment_task best prefs.pomodoro_min).toNat : Nat) : Int) *
              (prefs.pomodoro_min + prefs.break_min) ≤ fe := by
          by_cases hpos : 0 ≤ segment_task best prefs.pomodoro_min
          · rw [Int.toNat_of_nonneg hpos]
            linarith
          · rw [Int.toNat_of_nonpos (le_of_not_le hpos)]
            simpa using le_of_lt hc.1
        obtain ⟨hct1, hct2, hchain1, hblk1⟩ := placeDelta_within prefs best
          (decide (pool.indexOf best < pool.length - 1)) fe hp hb hl hlb
          (segment_task best prefs.pomodoro_min).toNat ct cc hinv
        rw [placeCycles_acc prefs best
          (decide (pool.indexOf best < pool.length - 1)) fe
          (segment_task best prefs.pomodoro_min).toNat ct cc blocks]
        dsimp only
        obtain ⟨δ₂, hδ₂, hchain2, hblk2⟩ := packInterval_within prefs hp hb hl
          hlb fuel
          (placeCycles prefs best
            (decide (pool.indexOf best < pool.length - 1)) fe
            (segment_task best prefs.pomodoro_min).toNat ct cc []).1
          fe (pool.erase best) (addId sched best.id)
          (placeCycles prefs best
            (decide (pool.indexOf best < pool.length - 1)) fe
            (segment_task best prefs.pomodoro_min).toNat ct cc []).2.1
          (blocks ++ placeDelta prefs best
            (decide (pool.indexOf best < pool.length - 1)) fe
            (segment_task best prefs.pomodoro_min).toNat ct cc)
        have hpd : placeDelta prefs best
            (decide (pool.indexOf best < pool.length - 1)) fe
            (segment_task best prefs.pomodoro_min).toNat ct cc =
          (placeCycles prefs best
            (decide (pool.indexOf best < pool.length - 1)) fe
            (segment_task best prefs.pomodoro_min).toNat ct cc []).2.2 := rfl
        refine ⟨placeDelta prefs best
            (decide (pool.indexOf best < pool.length - 1)) fe
            (segment_task best prefs.pomodoro_min).toNat ct cc ++ δ₂,
          ?_, ?_, ?_⟩
        · rw [← hpd, hδ₂, List.append_assoc]
        · rw [List.chain'_append]
          refine ⟨hchain1, hchain2, ?_⟩
          intro x hx y hy
          have hx' := List.mem_of_mem_getLast? hx
          have hy' := List.mem_of_mem_head? hy
          have h1 := (hblk1 x hx').2.1
          have h2 := (hblk2 y hy').1
          linarith
        · intro blk hblk
          rcases List.mem_append.1 hblk with hblk | hblk
          · obtain ⟨h1, h2, h3⟩ := hblk1 blk hblk
            exact ⟨h1, le_trans h2 hct2, h3⟩
          · obtain ⟨h1, h2, h3⟩ := hblk2 blk hblk
            exact ⟨le_trans hct1 h1, h2, h3⟩
    · rw [if_neg hc]
      exact ⟨[], by simp, List.chain'_nil, by simp⟩

/-- The whole packing pass appends a pairwise-ordered, proper delta, each
block of which lies inside some free interval, as long as the free
intervals are pairwise ordered. -/
theorem packAll_within (prefs : Preferences)
    (hp : 0 < prefs.pomodoro_min) (hb : 0 < prefs.break_min)
    (hl : 0 < prefs.long_break_min)
    (hlb : prefs.long_break_min ≤ prefs.break_min) :
    ∀ (gaps : List (Int × Int)) (pool : List Task) (sched : List String)
      (cc : Int) (blocks : List Block),
      List.Pairwise gapRel gaps →
      ∃ δ, (packAll prefs gaps pool sched cc blocks).2.2.2 = blocks ++ δ ∧
        List.Pairwise (fun a b : Block => a.stop ≤ b.start) δ ∧
        ∀ blk ∈ δ, blk.start < blk.stop ∧
          ∃ g ∈ gaps, g.1 ≤ blk.start ∧ blk.stop ≤ g.2
  | [], _, _, _, blocks, _ => ⟨[], by simp [packAll], List.Pairwise.nil, by simp⟩
  | (fs, fe) :: rest, pool, sched, cc, blocks, hpw => by
    obtain ⟨δ₁, hδ₁, hchain₁, hblk₁⟩ :=
      packInterval_within prefs hp hb hl hlb pool.length fs fe pool sched cc
        blocks
    obtain ⟨δ₂, hδ₂, hpw₂, hblk₂⟩ := packAll_within prefs hp hb hl hlb rest
      (packInterval prefs pool.length fs fe pool sched cc blocks).1
      (packInterval prefs pool.length fs fe pool sched cc blocks).2.1
      (packInterval prefs pool.length fs fe pool sched cc blocks).2.2.1
      (packInterval prefs pool.length fs fe pool sched cc blocks).2.2.2
      (List.pairwise_cons.1 hpw).2
    refine ⟨δ₁ ++ δ₂, ?_, ?_, ?_⟩
    · show (packAll prefs rest _ _ _ _).2.2.2 = _
      rw [hδ₂, hδ₁, List.append_assoc]
    · rw [List.pairwise_append]
      refine ⟨?_, hpw₂, ?_⟩
      · exact chain_le_pairwise (fun blk => blk.start) (fun blk => blk.stop)
          δ₁ hchain₁ (fun y hy => (hblk₁ y hy).2.2)
      · intro a ha b hb'
        obtain ⟨-, g', hg', hg1, -⟩ := hblk₂ b hb'
        have hfeg : fe ≤ g'.1 := (List.pairwise_cons.1 hpw).1 g' hg'
        have h1 := (hblk₁ a ha).2.1
        linarith
    · intro blk hblk
      rcases List.mem_append.1 hblk with hblk | hblk
      · obtain ⟨h1, h2, h3⟩ := hblk₁ blk hblk
        exact ⟨h3, ⟨(fs, fe), List.mem_cons_self .., h1, h2⟩⟩
      · obtain ⟨h3, g, hg, hg1, hg2⟩ := hblk₂ blk hblk
        exact ⟨h3, ⟨g, List.mem_cons_of_mem _ hg, hg1, hg2⟩⟩

/-! ## Claim C1 — the output schedule is proper and non-overlapping -/

/-- C1 counterexample: two individually valid but mutually overlapping
events (10:00–11:00 and 10:30–11:30) are copied verbatim, so the output,
already sorted by start, contains the overlapping pair (600,660), (630,690):
the first block's end exceeds the next block's start. -/
theorem plan_day_nonoverlap_cex :
    (plan_day reqOverlapEvents).blocks.map (fun b => (b.start, b.stop)) =
      [(600, 660), (630, 690)] ∧
    ¬ ((660 : Int) ≤ 630) :=
  ⟨by decide, by decide⟩

/-- C1 (amended): for every valid `PlanRequest` whose events are pairwise
non-overlapping and whose `long_break_min` does not exceed `break_min` (a
long break larger than the short break can overrun the reservation of the
fit check and collide with a following event — the same under-reservation
behind the atomicity bug), the block sequence returned by `plan_day`
(which is sorted by start) is non-overlapping — each block's end is at most
the next block's start — and every block satisfies start < end. -/
theorem plan_day_nonoverlap (r : PlanRequest)
    (hp : 0 < r.preferences.pomodoro_min)
    (hb : 0 < r.preferences.break_min)
    (hl : 0 < r.preferences.long_break_min)
    (hlb : r.preferences.long_break_min ≤ r.preferences.break_min)
    (hev : ∀ e ∈ r.events, e.start < e.stop)
    (hdisj : r.events.Pairwise
      (fun a b => a.stop ≤ b.start ∨ b.stop ≤ a.start)) :
    (∀ blk ∈ (plan_day r).blocks, blk.start < blk.stop) ∧
    List.Chain' (fun a b : Block => a.stop ≤ b.start) (plan_day r).blocks := by
  have hbusyproper : ∀ q ∈ add_event_buffers r.events 5 ++
      r.events.map (fun e => (e.start, e.stop)), q.1 < q.2 := by
    intro q hq
    rcases List.mem_append.1 hq with hq | hq
    · unfold add_event_buffers at hq
      obtain ⟨e, he, heq⟩ := List.mem_map.1 hq
      rw [← heq]
      have := hev e he
      dsimp only
      linarith
    · obtain ⟨e, he, heq⟩ := List.mem_map.1 hq
      rw [← heq]
      exact hev e he
  have hgapspw : List.Pairwise gapRel
      (subtract_busy_time
        (r.preferences.workday_start, r.preferences.workday_end)
        (add_event_buffers r.events 5 ++
          r.events.map (fun e => (e.start, e.stop)))) := by
    by_cases hnil : (add_event_buffers r.events 5 ++
        r.events.map (fun e => (e.start, e.stop))) = []
    · rw [hnil]
      unfold subtract_busy_time
      rw [if_pos rfl]
      exact List.pairwise_singleton ..
    · obtain ⟨hchain, hbounds⟩ := subtract_busy_time_chain_proper
        (r.preferences.workday_start, r.preferences.workday_end) _ hnil
        hbusyproper
      exact chain_le_pairwise Prod.fst Prod.snd _ hchain
        (fun y hy => (hbounds y hy).2)
  obtain ⟨δ, hδ, hpwδ, hblkδ⟩ := packAll_within r.preferences hp hb hl hlb
    (subtract_busy_time
      (r.preferences.workday_start, r.preferences.workday_end)
      (add_event_buffers r.events 5 ++
        r.events.map (fun e => (e.start, e.stop))))
    (sortTasksByScoreDesc
      (fun t => calculate_task_score t r.preferences.workday_start) r.tasks)
    [] 0 (r.events.map eventBlock) hgapspw
  have hblocks : (plan_day r).blocks =
      sortBlocksByStart (r.events.map eventBlock ++ δ) := by
    rw [← hδ]; rfl
  have hpw_events : List.Pairwise blockDisjoint (r.events.map eventBlock) := by
    rw [List.pairwise_map]
    exact hdisj.imp (fun h => h)
  have hcross : ∀ eb ∈ r.events.map eventBlock, ∀ blk ∈ δ,
      blockDisjoint eb blk := by
    intro eb heb blk hblk
    obtain ⟨e, he, heq⟩ := List.mem_map.1 heb
    obtain ⟨hproper, g, hg, hg1, hg2⟩ := hblkδ blk hblk
    by_contra hnd
    rw [← heq] at hnd
    unfold blockDisjoint at hnd
    push_neg at hnd
    simp only [eventBlock] at hnd
    obtain ⟨hnd1, hnd2⟩ := hnd
    have hx1 : g.1 ≤ max e.start blk.start := le_trans hg1 (le_max_right _ _)
    have hx2 : max e.start blk.start < g.2 :=
      lt_of_lt_of_le (max_lt hnd2 hproper) hg2
    have huncov := subtract_busy_time_uncovered
      (r.preferences.workday_start, r.preferences.workday_end)
      (add_event_buffers r.events 5 ++
        r.events.map (fun e => (e.start, e.stop)))
      hbusyproper g hg (max e.start blk.start) hx1 hx2
    apply huncov
    refine ⟨(e.start, e.stop),
      List.mem_append.2 (Or.inr (List.mem_map.2 ⟨e, he, rfl⟩)),
      le_max_left _ _, ?_⟩
    exact max_lt (hev e he) hnd1
  have hpw_raw : List.Pairwise blockDisjoint (r.events.map eventBlock ++ δ) := by
    rw [List.pairwise_append]
    exact ⟨hpw_events, hpwδ.imp Or.inl, hcross⟩
  have hproper_raw : ∀ b ∈ r.events.map eventBlock ++ δ,
      b.start < b.stop := by
    intro b hbmem
    rcases List.mem_append.1 hbmem with hbmem | hbmem
    · obtain ⟨e, he, heq⟩ := List.mem_map.1 hbmem
      rw [← heq]
      exact hev e he
    · exact (hblkδ b hbmem).1
  have hperm : (sortBlocksByStart (r.events.map eventBlock ++ δ)).Perm
      (r.events.map eventBlock ++ δ) := stableSort_perm _ _
  have hpw_sorted : List.Pairwise blockDisjoint
      (sortBlocksByStart (r.events.map eventBlock ++ δ)) :=
    (hperm.pairwise_iff blockDisjoint_symm).2 hpw_raw
  have hproper_sorted : ∀ b ∈ sortBlocksByStart
      (r.events.map eventBlock ++ δ), b.start < b.stop :=
    fun b hbm => hproper_raw b (hperm.mem_iff.1 hbm)
  rw [hblocks]
  exact ⟨hproper_sorted, sorted_disjoint_chain _ (sortBlocksByStart_chain _)
    hpw_sorted hproper_sorted⟩

/-- C1 witness: the theorem applied to a concrete valid request (09:00–17:30
workday, short-break-sized long break, one event, one two-cycle task). -/
theorem plan_day_nonoverlap_witness :
    (∀ blk ∈ (plan_day reqNonOverlapW).blocks, blk.start < blk.stop) ∧
    List.Chain' (fun a b : Block => a.stop ≤ b.start)
      (plan_day reqNonOverlapW).blocks :=
  plan_day_nonoverlap reqNonOverlapW (by decide) (by decide) (by decide)
    (by decide) (by decide) (by simp [reqNonOverlapW])

end Aida
